import Mathlib

/-!
Shallow embedding of the maze engine (grid construction, DFS-backtracker
generation, BFS solving, hex wall codec, entrance/exit resolution), together
with theorems checking the specification's claims against it.

Coordinates are integers (as in the source, where all numbers share one type);
grids are row-major lists of rows of cells.  Randomness is modelled by an
explicit stream `rand : Nat → Nat` of choices, sampled once per generator loop
iteration; the choice is reduced modulo the neighbor count, so every behavior
of the original program corresponds to some stream and conversely.
-/

/-- The four wall flags of a cell. -/
structure Walls where
  top : Bool
  right : Bool
  bottom : Bool
  left : Bool
deriving DecidableEq, Repr

/-- A grid cell: coordinates, wall flags, and the generation-time visited flag. -/
structure Cell where
  x : Int
  y : Int
  walls : Walls
  visited : Bool
deriving DecidableEq, Repr

/-- A maze: dimensions and a row-major grid of cells (`cells[y][x]`). -/
structure Maze where
  width : Nat
  height : Nat
  cells : List (List Cell)
deriving DecidableEq, Repr

/-- A bare coordinate pair, used for path waypoints and cell addressing. -/
structure Point where
  x : Int
  y : Int
deriving DecidableEq, Repr

/-- `createCell` from the source: all four walls present, not visited. -/
def createCell (x y : Int) : Cell :=
  { x := x, y := y
    walls := { top := true, right := true, bottom := true, left := true }
    visited := false }

/-- `createMaze` from the source: a fully walled `width × height` grid. -/
def createMaze (width height : Nat) : Maze :=
  { width := width
    height := height
    cells := (List.range height).map (fun (y : Nat) =>
      (List.range width).map (fun (x : Nat) => createCell (x : Int) (y : Int))) }

/-- Cell lookup `maze.cells[y][x]`; out-of-range reads return a fresh fully
walled cell (the embedded code only reads in bounds). -/
def getCell (m : Maze) (x y : Int) : Cell :=
  (m.cells.getD y.toNat []).getD x.toNat (createCell x y)

/-- Replace the cell at `p` by `f` of the current cell (in-place mutation of
one cell in the source). -/
def modifyCell (m : Maze) (p : Point) (f : Cell → Cell) : Maze :=
  let row := (m.cells.getD p.y.toNat []).set p.x.toNat (f (getCell m p.x p.y))
  { m with cells := m.cells.set p.y.toNat row }

/-- In-bounds predicate for a point in an `w × h` grid. -/
def InB (w h : Nat) (p : Point) : Prop :=
  0 ≤ p.x ∧ p.x < (w : Int) ∧ 0 ≤ p.y ∧ p.y < (h : Int)

instance (w h : Nat) (p : Point) : Decidable (InB w h p) :=
  inferInstanceAs (Decidable (0 ≤ p.x ∧ p.x < (w : Int) ∧ 0 ≤ p.y ∧ p.y < (h : Int)))

/-- The five entrance positions. -/
inductive EntrancePosition where
  | topLeft | topRight | bottomLeft | bottomRight | center
deriving DecidableEq, Repr

/-- The five exit specifications. -/
inductive ExitPosition where
  | topLeft | topRight | bottomLeft | bottomRight | opposite
deriving DecidableEq, Repr

/-- `getEntranceCoordinates` from the source. -/
def getEntranceCoordinates (maze : Maze) (position : EntrancePosition) : Point :=
  match position with
  | .topLeft => { x := 0, y := 0 }
  | .topRight => { x := (maze.width : Int) - 1, y := 0 }
  | .bottomLeft => { x := 0, y := (maze.height : Int) - 1 }
  | .bottomRight => { x := (maze.width : Int) - 1, y := (maze.height : Int) - 1 }
  | .center => { x := (maze.width / 2 : Nat), y := (maze.height / 2 : Nat) }

/-- `getExitCoordinates` from the source: switch on the exit spec first; for
`opposite`, switch on the entrance (with `center` falling through to the
bottom-right default). -/
def getExitCoordinates (maze : Maze) (entrance : EntrancePosition)
    (exit_ : ExitPosition) : Point :=
  match exit_ with
  | .opposite =>
    match entrance with
    | .topLeft => { x := (maze.width : Int) - 1, y := (maze.height : Int) - 1 }
    | .topRight => { x := 0, y := (maze.height : Int) - 1 }
    | .bottomLeft => { x := (maze.width : Int) - 1, y := 0 }
    | .bottomRight => { x := 0, y := 0 }
    | .center => { x := (maze.width : Int) - 1, y := (maze.height : Int) - 1 }
  | .topLeft => { x := 0, y := 0 }
  | .topRight => { x := (maze.width : Int) - 1, y := 0 }
  | .bottomLeft => { x := 0, y := (maze.height : Int) - 1 }
  | .bottomRight => { x := (maze.width : Int) - 1, y := (maze.height : Int) - 1 }

/-! ## Solver (`solveMaze`) -/

/-- One direction probe of the solver's inner loop: bounds check, wall check on
the current cell's own flag, visited check; on success enqueue the neighbor
with the extended path and mark it visited. -/
def tryDir (m : Maze) (cur : Point) (path : List Point) (dx dy : Int)
    (wallHit : Bool) (st : List (Point × List Point) × List Point) :
    List (Point × List Point) × List Point :=
  let newX := cur.x + dx
  let newY := cur.y + dy
  if newX < 0 ∨ newX ≥ (m.width : Int) ∨ newY < 0 ∨ newY ≥ (m.height : Int) then st
  else if wallHit then st
  else if (⟨newX, newY⟩ : Point) ∈ st.2 then st
  else (st.1 ++ [(⟨newX, newY⟩, path ++ [⟨newX, newY⟩])], st.2 ++ [⟨newX, newY⟩])

/-- The solver's main loop; `fuel` is the number of iterations still allowed by
the `maxIterations` cap.  Directions are probed in source order: right, bottom,
left, top. -/
def solveLoop (m : Maze) (e start : Point) :
    Nat → List (Point × List Point) → List Point → List Point
  | 0, queue, _ =>
    match queue with
    | (_, path) :: _ => path
    | [] => [start]
  | _ + 1, [], _ => [start]
  | fuel + 1, (cur, path) :: rest, visited =>
    if cur = e then path
    else
      let cell := getCell m cur.x cur.y
      let st1 := tryDir m cur path 1 0 cell.walls.right (rest, visited)
      let st2 := tryDir m cur path 0 1 cell.walls.bottom st1
      let st3 := tryDir m cur path (-1) 0 cell.walls.left st2
      let st4 := tryDir m cur path 0 (-1) cell.walls.top st3
      solveLoop m e start fuel st4.1 st4.2

/-- `solveMaze` from the source: BFS from `start` to `end` capped at
`width*height*4` dequeues, with the partial-path fallback. -/
def solveMaze (m : Maze) (start e : Point) : List Point :=
  solveLoop m e start (m.width * m.height * 4) [(start, [start])] [start]

/-! ## Codec (`serializeMaze` / `deserializeMaze`) -/

/-- Lower-case hexadecimal digit character for `n < 16` (as `toString(16)`). -/
def hexDigit (n : Nat) : Char :=
  if n < 10 then Char.ofNat (48 + n) else Char.ofNat (87 + n)

/-- `parseInt(c, 16)` on a single character, with `NaN` (any non-hex-digit
character) collapsing to `0` under the subsequent bitwise masking. -/
def hexVal (c : Char) : Nat :=
  if 48 ≤ c.toNat ∧ c.toNat ≤ 57 then c.toNat - 48
  else if 97 ≤ c.toNat ∧ c.toNat ≤ 102 then c.toNat - 87
  else if 65 ≤ c.toNat ∧ c.toNat ≤ 70 then c.toNat - 55
  else 0

/-- The hex value of a cell's walls: sequential `value |= bit` as in the
source, bits `top=1, right=2, bottom=4, left=8`. -/
def wallValue (c : Cell) : Nat :=
  let v0 : Nat := 0
  let v1 := if c.walls.top then v0 ||| 1 else v0
  let v2 := if c.walls.right then v1 ||| 2 else v1
  let v3 := if c.walls.bottom then v2 ||| 4 else v2
  if c.walls.left then v3 ||| 8 else v3

/-- `serializeMaze` from the source: one hex digit per cell, row-major,
concatenated. -/
def serializeMaze (m : Maze) : String :=
  String.mk (m.cells.flatMap (fun row => row.map (fun c => hexDigit (wallValue c))))

/-- `deserializeMaze` from the source: read one hex digit per cell in row-major
order (`dataIndex = y*width + x`), missing characters read as `'0'`, and unpack
the bit flags; `visited` is always false. -/
def deserializeMaze (data : String) (width height : Nat) : Maze :=
  { width := width
    height := height
    cells := (List.range height).map (fun y =>
      (List.range width).map (fun x =>
        let value := hexVal (data.toList.getD (y * width + x) '0')
        { x := (x : Int), y := (y : Int)
          walls := { top := value &&& 1 ≠ 0, right := value &&& 2 ≠ 0
                     bottom := value &&& 4 ≠ 0, left := value &&& 8 ≠ 0 }
          visited := false })) }

/-! ## Generator (`generateMaze`) -/

/-- `getNeighbors` from the source: the unvisited in-bounds grid neighbors of
`p`, in source order top, right, bottom, left.  The stack holds cell
references in the source; since cell coordinates never change, points are an
equivalent representation. -/
def getNeighbors (p : Point) (m : Maze) : List Point :=
  (if 0 < p.y ∧ ¬(getCell m p.x (p.y - 1)).visited then [⟨p.x, p.y - 1⟩] else []) ++
  (if p.x < (m.width : Int) - 1 ∧ ¬(getCell m (p.x + 1) p.y).visited then [⟨p.x + 1, p.y⟩] else []) ++
  (if p.y < (m.height : Int) - 1 ∧ ¬(getCell m p.x (p.y + 1)).visited then [⟨p.x, p.y + 1⟩] else []) ++
  (if 0 < p.x ∧ ¬(getCell m (p.x - 1) p.y).visited then [⟨p.x - 1, p.y⟩] else [])

/-- `removeWalls` from the source: clear the matching wall flags of the two
cells according to their coordinate difference. -/
def removeWalls (m : Maze) (cur nxt : Point) : Maze :=
  let dx := cur.x - nxt.x
  let dy := cur.y - nxt.y
  let m1 :=
    if dx = 1 then
      modifyCell (modifyCell m cur (fun c => { c with walls := { c.walls with left := false } }))
        nxt (fun c => { c with walls := { c.walls with right := false } })
    else if dx = -1 then
      modifyCell (modifyCell m cur (fun c => { c with walls := { c.walls with right := false } }))
        nxt (fun c => { c with walls := { c.walls with left := false } })
    else m
  if dy = 1 then
    modifyCell (modifyCell m1 cur (fun c => { c with walls := { c.walls with top := false } }))
      nxt (fun c => { c with walls := { c.walls with bottom := false } })
  else if dy = -1 then
    modifyCell (modifyCell m1 cur (fun c => { c with walls := { c.walls with bottom := false } }))
      nxt (fun c => { c with walls := { c.walls with top := false } })
  else m1

/-- Mark the cell at `p` visited. -/
def markVisited (m : Maze) (p : Point) : Maze :=
  modifyCell m p (fun c => { c with visited := true })

/-- The generator's main loop.  `rand steps % n` models
`Math.floor(Math.random() * n)`; `fuel` bounds the iterations (the proofs show
`2*width*height` always suffices, so the loop genuinely terminates). -/
def genLoop (rand : Nat → Nat) : Nat → Maze → List Point → Nat → Maze × List Point
  | 0, m, stack, _ => (m, stack)
  | _ + 1, m, [], _ => (m, [])
  | fuel + 1, m, current :: rest, steps =>
    let neighbors := getNeighbors current m
    if h : 0 < neighbors.length then
      let nxt := neighbors.get ⟨rand steps % neighbors.length, Nat.mod_lt _ h⟩
      let m1 := removeWalls m current nxt
      let m2 := markVisited m1 nxt
      genLoop rand fuel m2 (nxt :: current :: rest) (steps + 1)
    else
      genLoop rand fuel m rest (steps + 1)

/-- `generateMaze` with the final loop state exposed (maze and remaining
stack); the stack component witnesses loop termination. -/
def generateMazeAux (width height : Nat) (_difficulty : Nat) (rand : Nat → Nat) :
    Maze × List Point :=
  let m0 := createMaze width height
  let m1 := markVisited m0 ⟨0, 0⟩
  genLoop rand (2 * width * height) m1 [⟨0, 0⟩] 0

/-- `generateMaze` from the source (the `difficulty` argument is accepted and
unused there). -/
def generateMaze (width height : Nat) (difficulty : Nat) (rand : Nat → Nat) : Maze :=
  (generateMazeAux width height difficulty rand).1

/-! ## Structural predicates -/

/-- Shape well-formedness: the row list matches the declared dimensions. -/
def ShapeWF (g : Maze) : Prop :=
  g.cells.length = g.height ∧ ∀ row ∈ g.cells, row.length = g.width

instance (g : Maze) : Decidable (ShapeWF g) :=
  inferInstanceAs (Decidable (_ ∧ ∀ row ∈ g.cells, row.length = g.width))

/-- Wall symmetry: adjacent cells agree about their shared edge. -/
def WallSymm (g : Maze) : Prop :=
  (∀ x y : Nat, x + 1 < g.width → y < g.height →
    (getCell g x y).walls.right = (getCell g (x + 1) y).walls.left) ∧
  (∀ x y : Nat, x < g.width → y + 1 < g.height →
    (getCell g x y).walls.bottom = (getCell g x (y + 1)).walls.top)

/-- ASCII hexadecimal digit recognizer (the characters `parseInt(·, 16)`
parses on its own; anything else yields `NaN`). -/
def isHexDigitChar (c : Char) : Bool :=
  (48 ≤ c.toNat && c.toNat ≤ 57) || (97 ≤ c.toNat && c.toNat ≤ 102) ||
    (65 ≤ c.toNat && c.toNat ≤ 70)

/-- One legal solver move: the target is in bounds and the wall flag of the
*current* cell in the direction of motion is absent (exactly the checks of the
solver's inner loop). -/
def stepOK (m : Maze) (p q : Point) : Prop :=
  InB m.width m.height q ∧
  ((q = ⟨p.x + 1, p.y⟩ ∧ (getCell m p.x p.y).walls.right = false) ∨
   (q = ⟨p.x, p.y + 1⟩ ∧ (getCell m p.x p.y).walls.bottom = false) ∨
   (q = ⟨p.x - 1, p.y⟩ ∧ (getCell m p.x p.y).walls.left = false) ∨
   (q = ⟨p.x, p.y - 1⟩ ∧ (getCell m p.x p.y).walls.top = false))

instance (m : Maze) (p q : Point) : Decidable (stepOK m p q) :=
  inferInstanceAs (Decidable (_ ∧ (_ ∨ _ ∨ _ ∨ _)))

/-- A solver path from `s` to `e`: nonempty, starts at `s`, ends at `e`, and
every consecutive pair is a legal move. -/
def PathFrom (m : Maze) (s e : Point) (l : List Point) : Prop :=
  l.head? = some s ∧ l.getLast? = some e ∧ List.Chain' (stepOK m) l

instance (m : Maze) (s e : Point) (l : List Point) : Decidable (PathFrom m s e l) :=
  inferInstanceAs (Decidable (_ ∧ _ ∧ List.Chain' (stepOK m) l))

/-- The path length of the entry at the front of the solver queue (0 for an
empty queue). -/
def frontLen (queue : List (Point × List Point)) : Nat :=
  match queue with
  | [] => 0
  | pr :: _ => pr.2.length

/-- Intermediate state of one dequeue step of the solver: starting from
frontier remainder `rest` and visited list `V0`, a list `news` of fresh legal
neighbors of `cur` has been enqueued (with paths extending `lc`) and marked
visited. -/
def StepState (m : Maze) (cur : Point) (lc : List Point)
    (rest : List (Point × List Point)) (V0 : List Point)
    (st : List (Point × List Point) × List Point) : Prop :=
  ∃ news : List Point,
    st.1 = rest ++ news.map (fun q => (q, lc ++ [q])) ∧
    st.2 = V0 ++ news ∧ news.Nodup ∧
    ∀ q ∈ news, stepOK m cur q ∧ q ∉ V0

/-- The breadth-first-search invariant of the solver loop: every frontier
entry carries a shortest path to its point, frontier path lengths are
non-decreasing with spread at most one, the visited list is duplicate-free,
in-bounds, contains the start, dequeued points have all their legal neighbors
visited, and every point whose path length is at most the front entry's is
already visited. -/
structure SolveInv (m : Maze) (s : Point) (queue : List (Point × List Point))
    (V : List Point) : Prop where
  epath : ∀ pr ∈ queue, PathFrom m s pr.1 pr.2
  eshort : ∀ pr ∈ queue, ∀ l, PathFrom m s pr.1 l → pr.2.length ≤ l.length
  sorted : List.Pairwise (fun a b : Point × List Point => a.2.length ≤ b.2.length) queue
  spread : ∀ a ∈ queue, ∀ b ∈ queue, a.2.length ≤ b.2.length + 1
  vnodup : V.Nodup
  vinb : ∀ p ∈ V, InB m.width m.height p
  hsv : s ∈ V
  closure : ∀ p ∈ V, p ∉ queue.map Prod.fst → ∀ q, stepOK m p q → q ∈ V
  complete : ∀ p l, PathFrom m s p l → l.length ≤ frontLen queue → p ∈ V

/-- Four-neighborhood adjacency of two points (coordinates only). -/
def gridAdj (p q : Point) : Prop :=
  (q.x = p.x + 1 ∧ q.y = p.y) ∨ (p.x = q.x + 1 ∧ p.y = q.y) ∨
  (q.y = p.y + 1 ∧ q.x = p.x) ∨ (p.y = q.y + 1 ∧ p.x = q.x)

/-- The horizontal internal edge from `p` to its right neighbor is open
(the canonical flag for that edge is the left cell's `right` wall). -/
def hEdge (m : Maze) (p : Point) : Prop :=
  (getCell m p.x p.y).walls.right = false

/-- The vertical internal edge from `p` to the cell below is open
(the canonical flag is the upper cell's `bottom` wall). -/
def vEdge (m : Maze) (p : Point) : Prop :=
  (getCell m p.x p.y).walls.bottom = false

/-- The open-edge relation of a maze: two in-bounds four-adjacent cells whose
shared wall (read from the canonical side) is absent. -/
def edgeOpen (m : Maze) (p q : Point) : Prop :=
  InB m.width m.height p ∧ InB m.width m.height q ∧
  ((q = ⟨p.x + 1, p.y⟩ ∧ hEdge m p) ∨ (p = ⟨q.x + 1, q.y⟩ ∧ hEdge m q) ∨
   (q = ⟨p.x, p.y + 1⟩ ∧ vEdge m p) ∨ (p = ⟨q.x, q.y + 1⟩ ∧ vEdge m q))

/-- The in-bounds cell positions of a `w × h` maze as vertices. -/
def Vtx (w h : Nat) : Type := { p : Point // InB w h p }

/-- The open-edge graph of a maze on its in-bounds cells. -/
def mazeGraph (m : Maze) : SimpleGraph (Vtx m.width m.height) where
  Adj u v := edgeOpen m u.val v.val
  symm := by
    rintro u v ⟨h1, h2, h3⟩
    refine ⟨h2, h1, ?_⟩
    tauto
  loopless := by
    rintro u ⟨-, -, h | h | h | h⟩ <;>
      (obtain ⟨he, -⟩ := h
       have := congrArg Point.x he
       have := congrArg Point.y he
       simp only at *
       omega)

/-- All cell positions of a `w × h` grid, row-major. -/
def allPoints (w h : Nat) : List Point :=
  (List.range h).flatMap (fun (y : Nat) =>
    (List.range w).map (fun (x : Nat) => (⟨(x : Int), (y : Int)⟩ : Point)))

/-- The number of open (removed) internal walls, each internal edge counted
once through its canonical flag. -/
def oCount (m : Maze) : Nat :=
  (allPoints (m.width - 1) m.height).countP (fun p => !(getCell m p.x p.y).walls.right) +
  (allPoints m.width (m.height - 1)).countP (fun p => !(getCell m p.x p.y).walls.bottom)

/-- The number of visited cells. -/
def vCount (m : Maze) : Nat :=
  (allPoints m.width m.height).countP (fun p => (getCell m p.x p.y).visited)

/-- The generator loop invariant: the maze keeps its shape and coordinates,
walls are symmetric, unvisited cells are fully walled, the origin is visited,
stack cells are visited and in bounds, a visited cell off the stack has all
its neighbors visited, one more cell is visited than walls are open, and the
open edges are exactly the parent edges of a rank-decreasing parent map on
the visited cells rooted at the origin. -/
structure GenInv (w h : Nat) (m : Maze) (stack : List Point) : Prop where
  hwidth : m.width = w
  hheight : m.height = h
  shape : ShapeWF m
  coords : ∀ p : Point, InB w h p →
    (getCell m p.x p.y).x = p.x ∧ (getCell m p.x p.y).y = p.y
  symm : WallSymm m
  intact : ∀ p : Point, InB w h p → (getCell m p.x p.y).visited = false →
    (getCell m p.x p.y).walls = { top := true, right := true, bottom := true, left := true }
  origin_vis : (getCell m 0 0).visited = true
  stack_inb : ∀ p ∈ stack, InB w h p
  stack_vis : ∀ p ∈ stack, (getCell m p.x p.y).visited = true
  closure : ∀ p : Point, InB w h p → (getCell m p.x p.y).visited = true → p ∉ stack →
    ∀ q : Point, InB w h q → gridAdj p q → (getCell m q.x q.y).visited = true
  count : oCount m + 1 = vCount m
  tree : ∃ (rk : Point → Nat) (par : Point → Point),
    (∀ p : Point, InB w h p → (getCell m p.x p.y).visited = true → p ≠ ⟨0, 0⟩ →
      InB w h (par p) ∧ (getCell m (par p).x (par p).y).visited = true ∧
      rk (par p) < rk p ∧ edgeOpen m p (par p)) ∧
    (∀ p q : Point, edgeOpen m p q →
      ((getCell m p.x p.y).visited = true ∧ p ≠ ⟨0, 0⟩ ∧ q = par p) ∨
      ((getCell m q.x q.y).visited = true ∧ q ≠ ⟨0, 0⟩ ∧ p = par q))

/-! ## Indexing helper lemmas -/

theorem getD_flat_of_uniform {α β : Type} (f : α → β) (w : Nat) (d : β) (c0 : α) :
    ∀ (rows : List (List α)) (y x : Nat), (∀ r ∈ rows, r.length = w) →
      x < w → y < rows.length →
      (rows.flatMap (fun row => row.map f)).getD (y * w + x) d =
        f ((rows.getD y []).getD x c0)
  | [], y, x, _, _, hy => by simp at hy
  | r :: rs, 0, x, hw, hx, _ => by
    have hr : r.length = w := hw r (by simp)
    have hx2 : x < (r.map f).length := by simp [hr, hx]
    rw [List.flatMap_cons, Nat.zero_mul, Nat.zero_add, List.getD_append _ _ _ _ hx2,
      List.getD_eq_getElem _ _ hx2, List.getElem_map, List.getD_cons_zero,
      List.getD_eq_getElem _ _ (by rw [hr]; exact hx)]
  | r :: rs, y + 1, x, hw, hx, hy => by
    have hr : r.length = w := hw r (by simp)
    have hlen : (r.map f).length = w := by simp [hr]
    have harith : (y + 1) * w + x = (r.map f).length + (y * w + x) := by
      rw [hlen]; ring
    rw [List.flatMap_cons, harith, List.getD_append_right _ _ _ _ (Nat.le_add_right _ _),
      Nat.add_sub_cancel_left, List.getD_cons_succ]
    exact getD_flat_of_uniform f w d c0 rs y x (fun r hr => hw r (by simp [hr])) hx
      (by simpa using hy)

theorem length_flat_of_uniform {α β : Type} (f : α → β) (w : Nat) :
    ∀ (rows : List (List α)), (∀ r ∈ rows, r.length = w) →
      (rows.flatMap (fun row => row.map f)).length = rows.length * w
  | [], _ => by simp
  | r :: rs, hw => by
    have hr : r.length = w := hw r (by simp)
    have := length_flat_of_uniform f w rs (fun r hr => hw r (by simp [hr]))
    simp [List.flatMap_cons, this, hr]; ring

theorem getD_range_map {α : Type} (f : Nat → α) (n i : Nat) (hi : i < n) (d : α) :
    ((List.range n).map f).getD i d = f i := by
  rw [List.getD_eq_getElem _ _ (by simpa using hi), List.getElem_map, List.getElem_range]

/-! ## Codec lemmas -/

theorem hexVal_hexDigit (v : Nat) (hv : v < 16) : hexVal (hexDigit v) = v := by
  interval_cases v <;> decide

theorem wallValue_eq_sum (c : Cell) :
    wallValue c = (if c.walls.top then 1 else 0) + (if c.walls.right then 2 else 0) +
      (if c.walls.bottom then 4 else 0) + (if c.walls.left then 8 else 0) := by
  rcases c with ⟨x, y, ⟨t, r, b, l⟩, v⟩
  cases t <;> cases r <;> cases b <;> cases l <;> simp [wallValue]

theorem wallValue_lt (c : Cell) : wallValue c < 16 := by
  rcases c with ⟨x, y, ⟨t, r, b, l⟩, v⟩
  cases t <;> cases r <;> cases b <;> cases l <;> simp [wallValue]

theorem decode_wallValue (c : Cell) :
    ({ top := wallValue c &&& 1 ≠ 0, right := wallValue c &&& 2 ≠ 0,
       bottom := wallValue c &&& 4 ≠ 0, left := wallValue c &&& 8 ≠ 0 } : Walls) = c.walls := by
  rcases c with ⟨x, y, ⟨t, r, b, l⟩, v⟩
  cases t <;> cases r <;> cases b <;> cases l <;> simp [wallValue] <;> decide

theorem serializeMaze_toList (m : Maze) :
    (serializeMaze m).toList = m.cells.flatMap (fun row => row.map (fun c => hexDigit (wallValue c))) :=
  rfl

theorem serializeMaze_length (g : Maze) (wf : ShapeWF g) :
    (serializeMaze g).length = g.width * g.height := by
  show (serializeMaze g).toList.length = _
  rw [serializeMaze_toList, length_flat_of_uniform _ _ _ wf.2, wf.1, Nat.mul_comm]

theorem serializeMaze_getD (g : Maze) (wf : ShapeWF g) (x y : Nat)
    (hx : x < g.width) (hy : y < g.height) (d : Char) :
    (serializeMaze g).toList.getD (y * g.width + x) d =
      hexDigit (wallValue (getCell g x y)) := by
  rw [serializeMaze_toList,
    getD_flat_of_uniform _ _ d (createCell x y) g.cells y x wf.2 hx (by rw [wf.1]; exact hy)]
  show _ = hexDigit (wallValue ((g.cells.getD (Int.toNat _) []).getD (Int.toNat _) _))
  simp [Int.toNat_natCast]

theorem getCell_deserializeMaze (data : String) (w h x y : Nat) (hx : x < w) (hy : y < h) :
    getCell (deserializeMaze data w h) x y =
      { x := (x : Int), y := (y : Int)
        walls := { top := hexVal (data.toList.getD (y * w + x) '0') &&& 1 ≠ 0
                   right := hexVal (data.toList.getD (y * w + x) '0') &&& 2 ≠ 0
                   bottom := hexVal (data.toList.getD (y * w + x) '0') &&& 4 ≠ 0
                   left := hexVal (data.toList.getD (y * w + x) '0') &&& 8 ≠ 0 }
        visited := false } := by
  show ((((List.range h).map _).getD (Int.toNat _) []).getD (Int.toNat _) _) = _
  simp only [Int.toNat_natCast]
  rw [getD_range_map _ _ _ hy, getD_range_map _ _ _ hx]

theorem hexVal_of_not_digit (c : Char) (hc : isHexDigitChar c = false) : hexVal c = 0 := by
  unfold isHexDigitChar at hc
  unfold hexVal
  split_ifs with h1 h2 h3
  · exfalso; simp [h1.1, h1.2] at hc
  · exfalso; simp [h2.1, h2.2] at hc
  · exfalso; simp [h3.1, h3.2] at hc
  · rfl

/-! ## Claim theorems: codec and resolver -/

/-- C6: `serialize` traverses cells in row-major order, emitting one base-16
digit per cell whose value is the sum of bit weights `top=1, right=2,
bottom=4, left=8` over the walls present, with no separators (the string's
length is exactly `width*height` and the character at index `y*width + x` is
the digit of cell `(x, y)`); `serialize` of a fully walled 1×1 grid is `"f"`. -/
theorem serializeMaze_spec :
    (∀ g : Maze, ShapeWF g →
      (serializeMaze g).length = g.width * g.height ∧
      ∀ x y : Nat, x < g.width → y < g.height →
        (serializeMaze g).toList.getD (y * g.width + x) '0' =
          hexDigit ((if (getCell g x y).walls.top then 1 else 0) +
            (if (getCell g x y).walls.right then 2 else 0) +
            (if (getCell g x y).walls.bottom then 4 else 0) +
            (if (getCell g x y).walls.left then 8 else 0))) ∧
    serializeMaze (createMaze 1 1) = "f" := by
  refine ⟨fun g wf => ⟨serializeMaze_length g wf, fun x y hx hy => ?_⟩, by decide⟩
  rw [serializeMaze_getD g wf x y hx hy, wallValue_eq_sum]

/-- Witness for C6 at the concrete grid `createMaze 2 2`. -/
theorem serializeMaze_spec_witness :
    ShapeWF (createMaze 2 2) ∧
      (serializeMaze (createMaze 2 2)).length = (createMaze 2 2).width * (createMaze 2 2).height :=
  ⟨by decide, (serializeMaze_spec.1 (createMaze 2 2) (by decide)).1⟩

/-- C7: `deserialize` is total: for every input string and dimensions it
returns a Grid of those dimensions; a cell position whose character is missing
(index beyond the string) or malformed (not a hex digit) is decoded as digit 0,
i.e. all four walls absent; and every cell has `visited = false`. -/
theorem deserializeMaze_total_spec (data : String) (w h : Nat) :
    (deserializeMaze data w h).width = w ∧
    (deserializeMaze data w h).height = h ∧
    ShapeWF (deserializeMaze data w h) ∧
    ∀ x y : Nat, x < w → y < h →
      (getCell (deserializeMaze data w h) x y).visited = false ∧
      ((data.length ≤ y * w + x ∨ isHexDigitChar (data.toList.getD (y * w + x) '0') = false) →
        (getCell (deserializeMaze data w h) x y).walls =
          { top := false, right := false, bottom := false, left := false }) := by
  refine ⟨rfl, rfl, ⟨by simp [deserializeMaze], ?_⟩, fun x y hx hy => ?_⟩
  · intro row hrow
    simp only [deserializeMaze, List.mem_map] at hrow
    obtain ⟨y, _, rfl⟩ := hrow
    simp [deserializeMaze]
  · rw [getCell_deserializeMaze data w h x y hx hy]
    refine ⟨rfl, fun hbad => ?_⟩
    have hz : hexVal (data.toList.getD (y * w + x) '0') = 0 := by
      rcases hbad with hlen | hmal
      · rw [List.getD_eq_default]
        · decide
        · exact hlen
      · exact hexVal_of_not_digit _ hmal
    rw [hz]
    rfl

/-- Witness for C7 at the concrete input `"zz"` on a 2×1 grid. -/
theorem deserializeMaze_total_spec_witness :
    (getCell (deserializeMaze "zz" 2 1) 1 0).walls =
      { top := false, right := false, bottom := false, left := false } :=
  ((deserializeMaze_total_spec "zz" 2 1).2.2.2 1 0 (by decide) (by decide)).2
    (Or.inr (by decide))

theorem roundtrip_cells (g : Maze) (wf : ShapeWF g) :
    (deserializeMaze (serializeMaze g) g.width g.height).width = g.width ∧
    (deserializeMaze (serializeMaze g) g.width g.height).height = g.height ∧
    ∀ x y : Nat, x < g.width → y < g.height →
      getCell (deserializeMaze (serializeMaze g) g.width g.height) x y =
        { x := (x : Int), y := (y : Int), walls := (getCell g x y).walls, visited := false } := by
  refine ⟨rfl, rfl, fun x y hx hy => ?_⟩
  rw [getCell_deserializeMaze _ _ _ _ _ hx hy, serializeMaze_getD g wf x y hx hy,
    hexVal_hexDigit _ (wallValue_lt _), decode_wallValue]

/-- C3: round trip.  For any shape-well-formed Grid `g`,
`deserialize(serialize(g), g.width, g.height)` has the same dimensions, and
each in-bounds cell has wall flags identical to `g`'s corresponding cell,
coordinates `x` and `y`, and `visited = false` regardless of `g`'s visitation
state. -/
theorem roundtrip_spec (g : Maze) (wf : ShapeWF g) :
    (deserializeMaze (serializeMaze g) g.width g.height).width = g.width ∧
    (deserializeMaze (serializeMaze g) g.width g.height).height = g.height ∧
    ∀ x y : Nat, x < g.width → y < g.height →
      getCell (deserializeMaze (serializeMaze g) g.width g.height) x y =
        { x := (x : Int), y := (y : Int), walls := (getCell g x y).walls, visited := false } :=
  roundtrip_cells g wf

/-- Witness for C3 at the concrete grid `createMaze 2 1` (with a visited cell,
to exercise the visitation-reset part, we use the raw fully walled grid). -/
theorem roundtrip_spec_witness :
    getCell (deserializeMaze (serializeMaze (createMaze 2 1)) (createMaze 2 1).width
        (createMaze 2 1).height) 1 0 =
      { x := (1 : Int), y := (0 : Int), walls := (getCell (createMaze 2 1) 1 0).walls,
        visited := false } :=
  (roundtrip_spec (createMaze 2 1) (by decide)).2.2 1 0 (by decide) (by decide)

/-- C4 counterexample: a Grid produced by `deserialize` from an arbitrary
string need not satisfy wall symmetry: after `deserialize("08", 2, 1)`, cell
(0,0) has no right wall but cell (1,0) has a left wall. -/
theorem deserialize_wall_symmetry_counterexample :
    ¬ ((getCell (deserializeMaze "08" 2 1) 0 0).walls.right =
       (getCell (deserializeMaze "08" 2 1) (0 + 1) 0).walls.left) := by
  decide

/-- C5: the solver's no-path fallbacks.  If the iteration cap is exhausted
(fuel 0) the loop returns the path attached to the front of the remaining
frontier, or `[start]` if the frontier is empty; if the frontier empties the
loop returns `[start]`; concretely, on a fully walled 2×1 grid
`solve(grid, (0,0), (1,0)) = [(0,0)]`. -/
theorem solve_fallback_spec :
    (∀ (m : Maze) (e s p : Point) (l : List Point) (rest : List (Point × List Point))
      (v : List Point), solveLoop m e s 0 ((p, l) :: rest) v = l) ∧
    (∀ (m : Maze) (e s : Point) (v : List Point), solveLoop m e s 0 [] v = [s]) ∧
    (∀ (m : Maze) (e s : Point) (fuel : Nat) (v : List Point),
      solveLoop m e s (fuel + 1) [] v = [s]) ∧
    solveMaze (createMaze 2 1) ⟨0, 0⟩ ⟨1, 0⟩ = [⟨0, 0⟩] :=
  ⟨fun _ _ _ _ _ _ _ => rfl, fun _ _ _ _ => rfl, fun _ _ _ _ _ => rfl, by decide⟩

/-- C10: a step is admitted by inspecting only the current cell's own wall flag
(the probe `tryDir` reads nothing of the maze beyond its dimensions, the flag
being passed in from the current cell), and on a wall-asymmetric grid built by
`deserialize` the returned path crosses an edge whose far-side cell still
records a wall. -/
theorem solver_own_wall_spec :
    (∀ (m m' : Maze), m.width = m'.width → m.height = m'.height →
      ∀ (cur : Point) (path : List Point) (dx dy : Int) (wallHit : Bool)
        (st : List (Point × List Point) × List Point),
        tryDir m cur path dx dy wallHit st = tryDir m' cur path dx dy wallHit st) ∧
    solveMaze (deserializeMaze "08" 2 1) ⟨0, 0⟩ ⟨1, 0⟩ = [⟨0, 0⟩, ⟨1, 0⟩] ∧
    (getCell (deserializeMaze "08" 2 1) 0 0).walls.right = false ∧
    (getCell (deserializeMaze "08" 2 1) 1 0).walls.left = true := by
  refine ⟨fun m m' hw hh cur path dx dy wb st => ?_, by decide, by decide, by decide⟩
  unfold tryDir
  rw [hw, hh]

/-- Witness for C10's generic conjunct at two concrete same-dimension grids. -/
theorem solver_own_wall_spec_witness :
    tryDir (createMaze 2 1) ⟨0, 0⟩ [] 1 0 false ([], []) =
      tryDir (deserializeMaze "08" 2 1) ⟨0, 0⟩ [] 1 0 false ([], []) :=
  solver_own_wall_spec.1 (createMaze 2 1) (deserializeMaze "08" 2 1) rfl rfl
    ⟨0, 0⟩ [] 1 0 false ([], [])

/-- C9: the position resolver tables: `entranceCoordinates` maps the four
corners and `center` to `(0,0)`, `(w-1,0)`, `(0,h-1)`, `(w-1,h-1)`,
`(⌊w/2⌋,⌊h/2⌋)`; an absolute exit spec resolves regardless of the entrance;
`opposite` maps each entrance corner to its geometric opposite, with `center`
treated as top-left (mapping to bottom-right). -/
theorem position_resolver_spec (m : Maze) :
    getEntranceCoordinates m .topLeft = ⟨0, 0⟩ ∧
    getEntranceCoordinates m .topRight = ⟨(m.width : Int) - 1, 0⟩ ∧
    getEntranceCoordinates m .bottomLeft = ⟨0, (m.height : Int) - 1⟩ ∧
    getEntranceCoordinates m .bottomRight = ⟨(m.width : Int) - 1, (m.height : Int) - 1⟩ ∧
    getEntranceCoordinates m .center = ⟨(m.width / 2 : Nat), (m.height / 2 : Nat)⟩ ∧
    (∀ ent, getExitCoordinates m ent .topLeft = ⟨0, 0⟩) ∧
    (∀ ent, getExitCoordinates m ent .topRight = ⟨(m.width : Int) - 1, 0⟩) ∧
    (∀ ent, getExitCoordinates m ent .bottomLeft = ⟨0, (m.height : Int) - 1⟩) ∧
    (∀ ent,
      getExitCoordinates m ent .bottomRight = ⟨(m.width : Int) - 1, (m.height : Int) - 1⟩) ∧
    getExitCoordinates m .topLeft .opposite = ⟨(m.width : Int) - 1, (m.height : Int) - 1⟩ ∧
    getExitCoordinates m .topRight .opposite = ⟨0, (m.height : Int) - 1⟩ ∧
    getExitCoordinates m .bottomLeft .opposite = ⟨(m.width : Int) - 1, 0⟩ ∧
    getExitCoordinates m .bottomRight .opposite = ⟨0, 0⟩ ∧
    getExitCoordinates m .center .opposite = ⟨(m.width : Int) - 1, (m.height : Int) - 1⟩ :=
  ⟨rfl, rfl, rfl, rfl, rfl, fun _ => rfl, fun _ => rfl, fun _ => rfl, fun _ => rfl,
    rfl, rfl, rfl, rfl, rfl⟩

/-- C8: the `difficulty` argument has no effect on generation: two runs with
the same random-choice stream and different difficulties return identical
Grids. -/
theorem difficulty_no_effect (w h d1 d2 : Nat) (rand : Nat → Nat) :
    generateMaze w h d1 rand = generateMaze w h d2 rand := rfl

/-! ## Solver path lemmas -/

theorem PathFrom.length_pos {m : Maze} {s e : Point} {l : List Point}
    (h : PathFrom m s e l) : 0 < l.length := by
  cases l with
  | nil => simp [PathFrom] at h
  | cons a t => simp

theorem pathFrom_singleton (m : Maze) (s : Point) : PathFrom m s s [s] :=
  ⟨rfl, rfl, by simp⟩

theorem pathFrom_length_one {m : Maze} {s e : Point} {l : List Point}
    (h : PathFrom m s e l) (hl : l.length ≤ 1) : e = s := by
  cases l with
  | nil => simp [PathFrom] at h
  | cons a t =>
    cases t with
    | nil =>
      obtain ⟨h1, h2, -⟩ := h
      simp at h1 h2
      rw [← h1, ← h2]
    | cons b t2 => simp at hl

theorem PathFrom.snoc {m : Maze} {s p q : Point} {l : List Point}
    (h : PathFrom m s p l) (hs : stepOK m p q) : PathFrom m s q (l ++ [q]) := by
  obtain ⟨h1, h2, h3⟩ := h
  refine ⟨?_, ?_, ?_⟩
  · cases l with
    | nil => simp at h1
    | cons a t => simpa using h1
  · simp
  · refine List.Chain'.append h3 (by simp) ?_
    intro x hx y hy
    simp at hy
    rw [h2] at hx
    simp at hx
    rw [← hx, ← hy]
    exact hs

theorem PathFrom.unsnoc {m : Maze} {s e : Point} {l : List Point}
    (h : PathFrom m s e l) (hl : 2 ≤ l.length) :
    ∃ (l2 : List Point) (u : Point), l = l2 ++ [e] ∧ PathFrom m s u l2 ∧ stepOK m u e ∧
      l2.length + 1 = l.length := by
  obtain ⟨h1, h2, h3⟩ := h
  rcases List.eq_nil_or_concat l with rfl | ⟨l2, a, rfl⟩
  · simp at hl
  · have hae : a = e := by simpa [List.concat_eq_append] using h2
    subst hae
    have hl2 : l2 ≠ [] := by
      rintro rfl
      simp [List.concat_eq_append] at hl
    rw [List.concat_eq_append] at h1 h3 ⊢
    obtain ⟨hc2, -, hrel⟩ := List.chain'_append.mp h3
    obtain ⟨u, hu⟩ := List.getLast?_isSome.mpr hl2 |> Option.isSome_iff_exists.mp
    refine ⟨l2, u, rfl, ⟨?_, hu, hc2⟩, ?_, by simp⟩
    · cases l2 with
      | nil => exact absurd rfl hl2
      | cons b t => simpa using h1
    · exact hrel u hu a (by simp)

theorem mem_of_closed {m : Maze} {s : Point} {V : List Point}
    (hs : s ∈ V) (hcl : ∀ p ∈ V, ∀ q, stepOK m p q → q ∈ V) :
    ∀ (l : List Point) (p : Point), PathFrom m s p l → p ∈ V := by
  intro l
  induction l using List.reverseRecOn with
  | nil => intro p h; simp [PathFrom] at h
  | append_singleton l2 a ih =>
    intro p h
    by_cases h2 : 2 ≤ (l2 ++ [a]).length
    · obtain ⟨l3, u, heq, hpu, hstep, -⟩ := h.unsnoc h2
      have hlen : l2.length = l3.length := by
        have := congrArg List.length heq
        simp at this
        omega
      have hl3 : l3 = l2 := ((List.append_inj heq hlen).1).symm
      subst hl3
      exact hcl u (ih u hpu) p hstep
    · have := pathFrom_length_one h (by omega)
      rw [this]
      exact hs

theorem nodup_inb_length_le (w h : Nat) (V : List Point) (hnd : V.Nodup)
    (hin : ∀ p ∈ V, InB w h p) : V.length ≤ w * h := by
  have hmapnd : (V.map (fun p : Point => w * p.y.toNat + p.x.toNat)).Nodup := by
    refine List.Nodup.map_on ?_ hnd
    intro a ha b hb hab
    obtain ⟨hax0, haxw, hay0, hayh⟩ := hin a ha
    obtain ⟨hbx0, hbxw, hby0, hbyh⟩ := hin b hb
    have hw : 0 < w := by
      have : a.x.toNat < w := by omega
      omega
    have hx : a.x.toNat = b.x.toNat := by
      have h1 : (w * a.y.toNat + a.x.toNat) % w = a.x.toNat := by
        rw [Nat.mul_add_mod]
        exact Nat.mod_eq_of_lt (by omega)
      have h2 : (w * b.y.toNat + b.x.toNat) % w = b.x.toNat := by
        rw [Nat.mul_add_mod]
        exact Nat.mod_eq_of_lt (by omega)
      rw [← h1, ← h2, hab]
    have hy : a.y.toNat = b.y.toNat := by
      have h1 : (w * a.y.toNat + a.x.toNat) / w = a.y.toNat := by
        rw [Nat.mul_add_div hw, Nat.div_eq_of_lt (by omega), Nat.add_zero]
      have h2 : (w * b.y.toNat + b.x.toNat) / w = b.y.toNat := by
        rw [Nat.mul_add_div hw, Nat.div_eq_of_lt (by omega), Nat.add_zero]
      rw [← h1, ← h2, hab]
    have : a.x = b.x ∧ a.y = b.y := by omega
    cases a; cases b
    simp_all
  have hsub : (V.map (fun p : Point => w * p.y.toNat + p.x.toNat)) ⊆ List.range (w * h) := by
    intro n hn
    obtain ⟨p, hp, rfl⟩ := List.mem_map.mp hn
    obtain ⟨hx0, hxw, hy0, hyh⟩ := hin p hp
    rw [List.mem_range]
    have h1 : w * p.y.toNat + p.x.toNat < w * (p.y.toNat + 1) := by
      have : p.x.toNat < w := by omega
      calc w * p.y.toNat + p.x.toNat < w * p.y.toNat + w := by omega
        _ = w * (p.y.toNat + 1) := by ring
    have h2 : w * (p.y.toNat + 1) ≤ w * h := Nat.mul_le_mul_left w (by omega)
    omega
  have := (List.subperm_of_subset hmapnd hsub).length_le
  simpa using this

/-! ## Solver step lemmas -/

theorem tryDir_eq (m : Maze) (cur : Point) (path : List Point) (dx dy : Int) (wb : Bool)
    (st : List (Point × List Point) × List Point) :
    tryDir m cur path dx dy wb st =
      if InB m.width m.height ⟨cur.x + dx, cur.y + dy⟩ ∧ wb = false ∧
          (⟨cur.x + dx, cur.y + dy⟩ : Point) ∉ st.2 then
        (st.1 ++ [(⟨cur.x + dx, cur.y + dy⟩, path ++ [⟨cur.x + dx, cur.y + dy⟩])],
         st.2 ++ [⟨cur.x + dx, cur.y + dy⟩])
      else st := by
  simp only [tryDir]
  by_cases hb : cur.x + dx < 0 ∨ cur.x + dx ≥ (m.width : Int) ∨ cur.y + dy < 0 ∨
      cur.y + dy ≥ (m.height : Int)
  · rw [if_pos hb, if_neg]
    rintro ⟨hin, -, -⟩
    obtain ⟨h1, h2, h3, h4⟩ := hin
    simp only at h1 h2 h3 h4
    omega
  · rw [if_neg hb]
    have hInB : InB m.width m.height ⟨cur.x + dx, cur.y + dy⟩ := by
      refine ⟨?_, ?_, ?_, ?_⟩ <;> (simp only; omega)
    cases wb with
    | false =>
      rw [if_neg (by simp)]
      by_cases hv : (⟨cur.x + dx, cur.y + dy⟩ : Point) ∈ st.2
      · rw [if_pos hv, if_neg (by simp [hv])]
      · rw [if_neg hv, if_pos ⟨hInB, rfl, hv⟩]
    | true =>
      rw [if_pos rfl, if_neg (by simp)]

theorem stepState_init (m : Maze) (cur : Point) (lc : List Point)
    (rest : List (Point × List Point)) (V0 : List Point) :
    StepState m cur lc rest V0 (rest, V0) :=
  ⟨[], by simp, by simp, by simp, by simp⟩

theorem StepState.tryDir {m : Maze} {cur : Point} {lc : List Point}
    {rest : List (Point × List Point)} {V0 : List Point}
    {st : List (Point × List Point) × List Point}
    (h : StepState m cur lc rest V0 st) (dx dy : Int) (wb : Bool)
    (hstep : InB m.width m.height ⟨cur.x + dx, cur.y + dy⟩ → wb = false →
      stepOK m cur ⟨cur.x + dx, cur.y + dy⟩) :
    StepState m cur lc rest V0 (tryDir m cur lc dx dy wb st) := by
  obtain ⟨news, h1, h2, h3, h4⟩ := h
  rw [tryDir_eq]
  split_ifs with hc
  · obtain ⟨hin, hwb, hnv⟩ := hc
    rw [h2] at hnv
    simp only [List.mem_append] at hnv
    push_neg at hnv
    refine ⟨news ++ [⟨cur.x + dx, cur.y + dy⟩], ?_, ?_, ?_, ?_⟩
    · rw [h1]; simp
    · rw [h2]; simp
    · simp only [List.nodup_append, h3]
      refine ⟨trivial, List.nodup_singleton _, ?_⟩
      intro a ha hb
      simp at hb
      rw [hb] at ha
      exact hnv.2 ha
    · intro q hq
      rcases List.mem_append.mp hq with hq1 | hq2
      · exact h4 q hq1
      · simp at hq2
        rw [hq2]
        exact ⟨hstep hin hwb, hnv.1⟩
  · exact ⟨news, h1, h2, h3, h4⟩

theorem tryDir_visited_mono (m : Maze) (cur : Point) (path : List Point) (dx dy : Int)
    (wb : Bool) (st : List (Point × List Point) × List Point) :
    st.2 ⊆ (tryDir m cur path dx dy wb st).2 := by
  rw [tryDir_eq]
  split_ifs
  · simp only []
    exact fun a ha => List.mem_append.mpr (Or.inl ha)
  · exact fun a ha => ha

theorem tryDir_covers (m : Maze) (cur : Point) (path : List Point) (dx dy : Int)
    (wb : Bool) (st : List (Point × List Point) × List Point)
    (hin : InB m.width m.height ⟨cur.x + dx, cur.y + dy⟩) (hwb : wb = false) :
    (⟨cur.x + dx, cur.y + dy⟩ : Point) ∈ (tryDir m cur path dx dy wb st).2 := by
  rw [tryDir_eq]
  split_ifs with hc
  · simp
  · push_neg at hc
    exact hc hin hwb

theorem solve_preserve (m : Maze) (s cur : Point) (lc : List Point)
    (rest : List (Point × List Point)) (V news : List Point)
    (inv : SolveInv m s ((cur, lc) :: rest) V)
    (hnd : news.Nodup)
    (hnews : ∀ q ∈ news, stepOK m cur q ∧ q ∉ V)
    (hcover : ∀ q, stepOK m cur q → q ∈ V ++ news) :
    SolveInv m s (rest ++ news.map (fun q => (q, lc ++ [q]))) (V ++ news) := by
  set newsE := news.map (fun q => (q, lc ++ [q])) with hNE
  have hlc : PathFrom m s cur lc := inv.epath (cur, lc) (by simp)
  have hlcpos : 0 < lc.length := hlc.length_pos
  have hfl : frontLen ((cur, lc) :: rest) = lc.length := rfl
  have f1 : ∀ pr ∈ rest, lc.length ≤ pr.2.length := by
    have h := inv.sorted
    rw [List.pairwise_cons] at h
    exact fun pr hpr => h.1 pr hpr
  have f2 : ∀ pr ∈ rest, pr.2.length ≤ lc.length + 1 := fun pr hpr =>
    inv.spread pr (by simp [hpr]) (cur, lc) (by simp)
  have f3 : ∀ q ∈ news, ∀ l, PathFrom m s q l → lc.length + 1 ≤ l.length := by
    intro q hq l hl
    by_contra hcon
    push_neg at hcon
    exact (hnews q hq).2 (inv.complete q l hl (by rw [hfl]; omega))
  have f4 : ∀ q ∈ news, PathFrom m s q (lc ++ [q]) := fun q hq => hlc.snoc (hnews q hq).1
  have hNElen : ∀ pr ∈ newsE, pr.2.length = lc.length + 1 := by
    intro pr hpr
    obtain ⟨q, -, rfl⟩ := List.mem_map.mp hpr
    simp
  have hbound : ∀ pr ∈ rest ++ newsE, lc.length ≤ pr.2.length ∧ pr.2.length ≤ lc.length + 1 := by
    intro pr hpr
    rcases List.mem_append.mp hpr with h | h
    · exact ⟨f1 pr h, f2 pr h⟩
    · rw [hNElen pr h]; omega
  have epath' : ∀ pr ∈ rest ++ newsE, PathFrom m s pr.1 pr.2 := by
    intro pr hpr
    rcases List.mem_append.mp hpr with h | h
    · exact inv.epath pr (by simp [h])
    · obtain ⟨q, hq, rfl⟩ := List.mem_map.mp h
      exact f4 q hq
  have eshort' : ∀ pr ∈ rest ++ newsE, ∀ l, PathFrom m s pr.1 l → pr.2.length ≤ l.length := by
    intro pr hpr l hl
    rcases List.mem_append.mp hpr with h | h
    · exact inv.eshort pr (by simp [h]) l hl
    · obtain ⟨q, hq, rfl⟩ := List.mem_map.mp h
      simpa using f3 q hq l hl
  have sorted' : List.Pairwise (fun a b : Point × List Point => a.2.length ≤ b.2.length)
      (rest ++ newsE) := by
    rw [List.pairwise_append]
    refine ⟨(List.pairwise_cons.mp inv.sorted).2, ?_, ?_⟩
    · rw [List.pairwise_map]
      exact hnd.imp (fun _ => by simp)
    · intro a ha b hb
      rw [hNElen b hb]
      exact f2 a ha
  have vnodup' : (V ++ news).Nodup :=
    inv.vnodup.append hnd (fun a ha hb => (hnews a hb).2 ha)
  have vinb' : ∀ p ∈ V ++ news, InB m.width m.height p := by
    intro p hp
    rcases List.mem_append.mp hp with h | h
    · exact inv.vinb p h
    · exact (hnews p h).1.1
  have closure' : ∀ p ∈ V ++ news, p ∉ (rest ++ newsE).map Prod.fst →
      ∀ q, stepOK m p q → q ∈ V ++ news := by
    intro p hp hnotq q hstep
    rcases List.mem_append.mp hp with hpV | hpN
    · by_cases hpc : p = cur
      · subst hpc
        exact hcover q hstep
      · have hpold : p ∉ ((cur, lc) :: rest).map Prod.fst := by
          rw [List.map_append] at hnotq
          simp only [List.map_cons, List.mem_cons]
          push_neg
          exact ⟨hpc, fun hmem => hnotq (List.mem_append.mpr (Or.inl hmem))⟩
        exact List.mem_append.mpr (Or.inl (inv.closure p hpV hpold q hstep))
    · exfalso
      apply hnotq
      rw [List.map_append]
      refine List.mem_append.mpr (Or.inr ?_)
      rw [hNE, List.map_map]
      simpa using hpN
  refine ⟨epath', eshort', sorted', ?_, vnodup', vinb', List.mem_append.mpr (Or.inl inv.hsv),
    closure', ?_⟩
  · intro a ha b hb
    have h1 := hbound a ha
    have h2 := hbound b hb
    omega
  · intro p l hl hlen
    cases hQ : rest ++ newsE with
    | nil =>
      rw [hQ] at hlen
      have := hl.length_pos
      simp only [frontLen] at hlen
      omega
    | cons f' t' =>
      rw [hQ] at hlen
      simp only [frontLen] at hlen
      have hf'mem : f' ∈ rest ++ newsE := by rw [hQ]; simp
      have hfb := hbound f' hf'mem
      by_cases hll : l.length ≤ lc.length
      · exact List.mem_append.mpr (Or.inl (inv.complete p l hl (by rw [hfl]; omega)))
      · have hlen1 : l.length = lc.length + 1 := by omega
        have hfl' : f'.2.length = lc.length + 1 := by omega
        obtain ⟨l2, u, -, hu, hstep, hlen2⟩ := hl.unsnoc (by omega)
        have huV : u ∈ V := inv.complete u l2 hu (by rw [hfl]; omega)
        have hmin : ∀ pr ∈ rest ++ newsE, f'.2.length ≤ pr.2.length := by
          have hs' := sorted'
          rw [hQ, List.pairwise_cons] at hs'
          intro pr hpr
          rw [hQ] at hpr
          rcases List.mem_cons.mp hpr with rfl | hpr2
          · exact Nat.le_refl _
          · exact hs'.1 pr hpr2
        have hunot : u ∉ (rest ++ newsE).map Prod.fst := by
          intro hmem
          obtain ⟨pr, hpr, hpru⟩ := List.mem_map.mp hmem
          have hshort := eshort' pr hpr l2 (by rw [hpru]; exact hu)
          have := hmin pr hpr
          omega
        exact closure' u (List.mem_append.mpr (Or.inl huV)) hunot p hstep

theorem solveLoop_cons (m : Maze) (e s cur : Point) (lc : List Point) (fuel : Nat)
    (rest : List (Point × List Point)) (V : List Point) :
    solveLoop m e s (fuel + 1) ((cur, lc) :: rest) V =
      if cur = e then lc
      else
        solveLoop m e s fuel
          (tryDir m cur lc 0 (-1) (getCell m cur.x cur.y).walls.top
            (tryDir m cur lc (-1) 0 (getCell m cur.x cur.y).walls.left
              (tryDir m cur lc 0 1 (getCell m cur.x cur.y).walls.bottom
                (tryDir m cur lc 1 0 (getCell m cur.x cur.y).walls.right (rest, V))))).1
          (tryDir m cur lc 0 (-1) (getCell m cur.x cur.y).walls.top
            (tryDir m cur lc (-1) 0 (getCell m cur.x cur.y).walls.left
              (tryDir m cur lc 0 1 (getCell m cur.x cur.y).walls.bottom
                (tryDir m cur lc 1 0 (getCell m cur.x cur.y).walls.right (rest, V))))).2 :=
  rfl

theorem solve_step_state (m : Maze) (cur : Point) (lc : List Point)
    (rest : List (Point × List Point)) (V : List Point) :
    StepState m cur lc rest V
      (tryDir m cur lc 0 (-1) (getCell m cur.x cur.y).walls.top
        (tryDir m cur lc (-1) 0 (getCell m cur.x cur.y).walls.left
          (tryDir m cur lc 0 1 (getCell m cur.x cur.y).walls.bottom
            (tryDir m cur lc 1 0 (getCell m cur.x cur.y).walls.right (rest, V))))) ∧
    ∀ q, stepOK m cur q →
      q ∈ (tryDir m cur lc 0 (-1) (getCell m cur.x cur.y).walls.top
        (tryDir m cur lc (-1) 0 (getCell m cur.x cur.y).walls.left
          (tryDir m cur lc 0 1 (getCell m cur.x cur.y).walls.bottom
            (tryDir m cur lc 1 0 (getCell m cur.x cur.y).walls.right (rest, V))))).2 := by
  have e1 : (⟨cur.x + 1, cur.y + 0⟩ : Point) = ⟨cur.x + 1, cur.y⟩ := by simp
  have e2 : (⟨cur.x + 0, cur.y + 1⟩ : Point) = ⟨cur.x, cur.y + 1⟩ := by simp
  have e3 : (⟨cur.x + -1, cur.y + 0⟩ : Point) = ⟨cur.x - 1, cur.y⟩ := by
    simp [Int.sub_eq_add_neg]
  have e4 : (⟨cur.x + 0, cur.y + -1⟩ : Point) = ⟨cur.x, cur.y - 1⟩ := by
    simp [Int.sub_eq_add_neg]
  have h1 := (stepState_init m cur lc rest V).tryDir 1 0
    (getCell m cur.x cur.y).walls.right
    (fun hin hwb => ⟨hin, by rw [e1]; exact Or.inl ⟨rfl, hwb⟩⟩)
  have h2 := h1.tryDir 0 1 (getCell m cur.x cur.y).walls.bottom
    (fun hin hwb => ⟨hin, by rw [e2]; exact Or.inr (Or.inl ⟨rfl, hwb⟩)⟩)
  have h3 := h2.tryDir (-1) 0 (getCell m cur.x cur.y).walls.left
    (fun hin hwb => ⟨hin, by rw [e3]; exact Or.inr (Or.inr (Or.inl ⟨rfl, hwb⟩))⟩)
  have h4 := h3.tryDir 0 (-1) (getCell m cur.x cur.y).walls.top
    (fun hin hwb => ⟨hin, by rw [e4]; exact Or.inr (Or.inr (Or.inr ⟨rfl, hwb⟩))⟩)
  refine ⟨h4, ?_⟩
  rintro q ⟨hin, hq⟩
  rcases hq with ⟨rfl, hw⟩ | ⟨rfl, hw⟩ | ⟨rfl, hw⟩ | ⟨rfl, hw⟩
  · apply tryDir_visited_mono
    apply tryDir_visited_mono
    apply tryDir_visited_mono
    rw [← e1] at hin ⊢
    exact tryDir_covers m cur lc 1 0 _ _ hin hw
  · apply tryDir_visited_mono
    apply tryDir_visited_mono
    rw [← e2] at hin ⊢
    exact tryDir_covers m cur lc 0 1 _ _ hin hw
  · apply tryDir_visited_mono
    rw [← e3] at hin ⊢
    exact tryDir_covers m cur lc (-1) 0 _ _ hin hw
  · rw [← e4] at hin ⊢
    exact tryDir_covers m cur lc 0 (-1) _ _ hin hw

theorem solveLoop_correct (m : Maze) (s e : Point) :
    ∀ (fuel : Nat) (queue : List (Point × List Point)) (V : List Point),
      SolveInv m s queue V →
      (e ∈ V → e ∈ queue.map Prod.fst) →
      (∃ l, PathFrom m s e l) →
      queue.length + (m.width * m.height - V.length) ≤ fuel →
      PathFrom m s e (solveLoop m e s fuel queue V) ∧
      ∀ l, PathFrom m s e l → (solveLoop m e s fuel queue V).length ≤ l.length := by
  intro fuel
  induction fuel with
  | zero =>
    intro queue V inv he hr hf
    exfalso
    have hq : queue = [] := by
      cases queue with
      | nil => rfl
      | cons a t => simp at hf
    subst hq
    obtain ⟨l, hl⟩ := hr
    have heV : e ∈ V :=
      mem_of_closed inv.hsv (fun p hp q hq => inv.closure p hp (by simp) q hq) l e hl
    simpa using he heV
  | succ fuel ih =>
    intro queue V inv he hr hf
    cases queue with
    | nil =>
      exfalso
      obtain ⟨l, hl⟩ := hr
      have heV : e ∈ V :=
        mem_of_closed inv.hsv (fun p hp q hq => inv.closure p hp (by simp) q hq) l e hl
      simpa using he heV
    | cons pr rest =>
      obtain ⟨cur, lc⟩ := pr
      rw [solveLoop_cons]
      by_cases hce : cur = e
      · rw [if_pos hce]
        subst hce
        exact ⟨inv.epath (cur, lc) (by simp), fun l hl => inv.eshort (cur, lc) (by simp) l hl⟩
      · rw [if_neg hce]
        obtain ⟨hss, hcov⟩ := solve_step_state m cur lc rest V
        obtain ⟨news, hq4, hv4, hnd, hprops⟩ := hss
        rw [hv4] at hcov
        rw [hq4, hv4]
        have inv' := solve_preserve m s cur lc rest V news inv hnd hprops hcov
        apply ih
        · exact inv'
        · intro heV'
          rcases List.mem_append.mp heV' with h | h
          · have hh := he h
            simp only [List.map_cons, List.mem_cons] at hh
            rcases hh with h1 | h1
            · exact absurd h1.symm hce
            · rw [List.map_append]
              exact List.mem_append.mpr (Or.inl h1)
          · rw [List.map_append]
            refine List.mem_append.mpr (Or.inr ?_)
            rw [List.map_map]
            simpa using h
        · exact hr
        · have hV'le : (V ++ news).length ≤ m.width * m.height :=
            nodup_inb_length_le _ _ _ inv'.vnodup inv'.vinb
          simp only [List.length_append, List.length_map, List.length_cons] at hf hV'le ⊢
          omega

/-- C2: for every grid and in-bounds start, if `end` is reachable from `start`
through the solver's step relation (four-adjacent moves across absent walls,
checked on the moving cell's own flag), then `solve` returns a sequence whose
first element is `start`, whose last is `end`, in which every consecutive pair
is a legal move, and whose length is minimal among all such paths.  (The
iteration cap of `width*height*4` dequeues is never the binding constraint:
the proof shows it always suffices, so reachability alone yields the
guarantee.) -/
theorem solveMaze_shortest_path (m : Maze) (s e : Point)
    (hs : InB m.width m.height s) (_he : InB m.width m.height e)
    (hreach : ∃ l, PathFrom m s e l) :
    PathFrom m s e (solveMaze m s e) ∧
    ∀ l, PathFrom m s e l → (solveMaze m s e).length ≤ l.length := by
  unfold solveMaze
  apply solveLoop_correct
  · refine ⟨?_, ?_, ?_, ?_, ?_, ?_, ?_, ?_, ?_⟩
    · intro pr hpr
      simp only [List.mem_singleton] at hpr
      rw [hpr]
      exact pathFrom_singleton m s
    · intro pr hpr l hl
      simp only [List.mem_singleton] at hpr
      rw [hpr]
      have := hl.length_pos
      simpa using this
    · simp
    · intro a ha b hb
      simp only [List.mem_singleton] at ha hb
      rw [ha, hb]
      exact Nat.le_succ _
    · simp
    · intro p hp
      simp only [List.mem_singleton] at hp
      rw [hp]
      exact hs
    · simp
    · intro p hp hnp
      simp only [List.mem_singleton] at hp
      simp only [List.map_cons, List.map_nil, List.mem_singleton] at hnp
      exact absurd hp hnp
    · intro p l hl hlen
      have : p = s := pathFrom_length_one hl (by simpa [frontLen] using hlen)
      simp [this]
  · intro heV
    simpa using heV
  · exact hreach
  · have hw : 0 < m.width := by
      obtain ⟨h1, h2, -, -⟩ := hs
      omega
    have hh : 0 < m.height := by
      obtain ⟨-, -, h3, h4⟩ := hs
      omega
    have hwh : 0 < m.width * m.height := Nat.mul_pos hw hh
    simp only [List.length_cons, List.length_nil]
    omega

/-- Witness for C2 on the concrete 2×2 maze of the repository's tests
(bottom wall of (0,0), top/right of (0,1), and left of (1,1) open). -/
theorem solveMaze_shortest_path_witness :
    PathFrom (deserializeMaze "bfc7" 2 2) ⟨0, 0⟩ ⟨1, 1⟩
      (solveMaze (deserializeMaze "bfc7" 2 2) ⟨0, 0⟩ ⟨1, 1⟩) :=
  (solveMaze_shortest_path (deserializeMaze "bfc7" 2 2) ⟨0, 0⟩ ⟨1, 1⟩ (by decide) (by decide)
    ⟨[⟨0, 0⟩, ⟨0, 1⟩, ⟨1, 1⟩], rfl, rfl,
      List.Chain.cons (by decide) (List.Chain.cons (by decide) List.Chain.nil)⟩).1

/-! ## Grid mutation lemmas -/

theorem getD_set_self {α : Type} (l : List α) (i : Nat) (a d : α) (h : i < l.length) :
    (l.set i a).getD i d = a := by
  rw [List.getD_eq_getElem _ _ (by simpa using h)]
  rw [List.getElem_set_self]

theorem getD_set_ne {α : Type} (l : List α) (i j : Nat) (a d : α) (h : i ≠ j) :
    (l.set i a).getD j d = l.getD j d := by
  rcases Nat.lt_or_ge j l.length with hj | hj
  · rw [List.getD_eq_getElem _ _ (by simpa using hj), List.getD_eq_getElem _ _ hj,
      List.getElem_set_ne h]
  · rw [List.getD_eq_default _ _ (by simpa using hj), List.getD_eq_default _ _ hj]

theorem width_modifyCell (m : Maze) (p : Point) (f : Cell → Cell) :
    (modifyCell m p f).width = m.width := rfl

theorem height_modifyCell (m : Maze) (p : Point) (f : Cell → Cell) :
    (modifyCell m p f).height = m.height := rfl

theorem shapeWF_modifyCell (m : Maze) (p : Point) (f : Cell → Cell) (hs : ShapeWF m)
    (hy : p.y.toNat < m.cells.length) : ShapeWF (modifyCell m p f) := by
  obtain ⟨h1, h2⟩ := hs
  refine ⟨?_, ?_⟩
  · show (m.cells.set p.y.toNat _).length = m.height
    rw [List.length_set]
    exact h1
  · intro row hrow
    simp only [modifyCell] at hrow
    rcases List.mem_or_eq_of_mem_set hrow with hmem | rfl
    · exact h2 row hmem
    · show _ = (modifyCell m p f).width
      rw [width_modifyCell, List.length_set]
      exact h2 _ (by rw [List.getD_eq_getElem _ _ hy]; exact List.getElem_mem hy)

theorem getCell_modifyCell_self (m : Maze) (p : Point) (f : Cell → Cell)
    (hs : ShapeWF m) (hp : InB m.width m.height p) :
    getCell (modifyCell m p f) p.x p.y = f (getCell m p.x p.y) := by
  obtain ⟨h1, h2⟩ := hs
  obtain ⟨hx0, hxw, hy0, hyh⟩ := hp
  have hylt : p.y.toNat < m.cells.length := by omega
  have hrowlen : (m.cells.getD p.y.toNat []).length = m.width :=
    h2 _ (by rw [List.getD_eq_getElem _ _ hylt]; exact List.getElem_mem hylt)
  have hxlt : p.x.toNat < (m.cells.getD p.y.toNat []).length := by
    rw [hrowlen]; omega
  show ((m.cells.set p.y.toNat _).getD p.y.toNat []).getD p.x.toNat _ = _
  rw [getD_set_self _ _ _ _ hylt, getD_set_self _ _ _ _ hxlt]

theorem getCell_modifyCell_ne (m : Maze) (p q : Point) (f : Cell → Cell)
    (hs : ShapeWF m) (hp : InB m.width m.height p) (hq : InB m.width m.height q)
    (hne : q ≠ p) :
    getCell (modifyCell m p f) q.x q.y = getCell m q.x q.y := by
  obtain ⟨h1, h2⟩ := hs
  obtain ⟨hpx0, hpxw, hpy0, hpyh⟩ := hp
  obtain ⟨hqx0, hqxw, hqy0, hqyh⟩ := hq
  have hylt : p.y.toNat < m.cells.length := by omega
  by_cases hyy : q.y.toNat = p.y.toNat
  · have hyq : q.y = p.y := by omega
    have hxx : q.x.toNat ≠ p.x.toNat := by
      intro hc
      apply hne
      have : q.x = p.x := by omega
      cases q; cases p
      simp only at this hyq
      rw [this, hyq]
    show ((m.cells.set p.y.toNat _).getD q.y.toNat []).getD q.x.toNat _ = _
    rw [hyy, getD_set_self _ _ _ _ hylt, getD_set_ne _ _ _ _ _ (Ne.symm hxx)]
    unfold getCell
    rw [hyy]
  · show ((m.cells.set p.y.toNat _).getD q.y.toNat []).getD q.x.toNat _ = _
    rw [getD_set_ne _ _ _ _ _ (Ne.symm hyy)]
    rfl

theorem getCell_createMaze (w h : Nat) (p : Point) (hp : InB w h p) :
    getCell (createMaze w h) p.x p.y = createCell p.x p.y := by
  obtain ⟨hx0, hxw, hy0, hyh⟩ := hp
  unfold getCell createMaze
  simp only []
  rw [getD_range_map _ _ _ (show p.y.toNat < h by omega),
    getD_range_map _ _ _ (show p.x.toNat < w by omega),
    Int.toNat_of_nonneg hx0, Int.toNat_of_nonneg hy0]

theorem shapeWF_createMaze (w h : Nat) : ShapeWF (createMaze w h) := by
  constructor
  · simp [createMaze]
  · intro row hrow
    simp only [createMaze, List.mem_map, List.mem_range] at hrow
    obtain ⟨y, -, rfl⟩ := hrow
    simp [createMaze]

theorem mem_allPoints (w h : Nat) (p : Point) : p ∈ allPoints w h ↔ InB w h p := by
  simp only [allPoints, List.mem_flatMap, List.mem_map, List.mem_range]
  constructor
  · rintro ⟨y, hy, x, hx, rfl⟩
    refine ⟨by simp, by simpa using hx, by simp, by simpa using hy⟩
  · rintro ⟨hx0, hxw, hy0, hyh⟩
    refine ⟨p.y.toNat, by omega, p.x.toNat, by omega, ?_⟩
    cases p
    simp only at hx0 hy0 ⊢
    rw [Int.toNat_of_nonneg hx0, Int.toNat_of_nonneg hy0]

theorem allPoints_nodup (w h : Nat) : (allPoints w h).Nodup := by
  rw [allPoints, List.nodup_flatMap]
  constructor
  · intro y hy
    refine List.Nodup.map ?_ (List.nodup_range w)
    intro a b hab
    simpa using hab
  · refine (List.pairwise_lt_range h).imp ?_
    intro y1 y2 hlt
    intro a ha hb
    simp only [List.mem_map, List.mem_range] at ha hb
    obtain ⟨x1, -, rfl⟩ := ha
    obtain ⟨x2, -, he⟩ := hb
    have := congrArg Point.y he
    simp only at this
    omega

theorem allPoints_length (w h : Nat) : (allPoints w h).length = h * w := by
  rw [allPoints, List.length_flatMap]
  simp only [Function.comp_def, List.length_map, List.length_range]
  simp [List.map_const', List.sum_replicate]

theorem countP_congr_eq {α : Type} (l : List α) (f g : α → Bool)
    (h : ∀ a ∈ l, f a = g a) : l.countP f = l.countP g :=
  List.countP_congr (fun x hx => by rw [h x hx])

theorem countP_flip {α : Type} (l : List α) (hnd : l.Nodup) (a : α) (ha : a ∈ l)
    (f g : α → Bool) (hfa : f a = false) (hga : g a = true)
    (hother : ∀ b ∈ l, b ≠ a → f b = g b) :
    l.countP g = l.countP f + 1 := by
  induction l with
  | nil => simp at ha
  | cons b t ih =>
    rw [List.nodup_cons] at hnd
    rcases List.mem_cons.mp ha with rfl | hat
    · have hft : t.countP f = t.countP g :=
        countP_congr_eq t f g (fun c hc => hother c (by simp [hc]) (by rintro rfl; exact hnd.1 hc))
      rw [List.countP_cons, List.countP_cons, hga, hfa]
      norm_num
      omega
    · have hba : b ≠ a := by rintro rfl; exact hnd.1 hat
      have hfb : f b = g b := hother b (by simp) hba
      have hrec := ih hnd.2 hat (fun c hc hca => hother c (by simp [hc]) hca)
      rw [List.countP_cons, List.countP_cons, hfb, hrec]
      omega

/-! ## Generator step lemmas -/

theorem mem_if_singleton {α : Type} (c : Prop) [Decidable c] (a q : α) :
    q ∈ (if c then [a] else []) ↔ c ∧ q = a := by
  split_ifs with hc <;> simp [hc]

theorem mem_getNeighbors (m : Maze) (p q : Point) (hp : InB m.width m.height p) :
    q ∈ getNeighbors p m ↔
      InB m.width m.height q ∧ gridAdj p q ∧ (getCell m q.x q.y).visited = false := by
  obtain ⟨hx0, hxw, hy0, hyh⟩ := hp
  unfold getNeighbors
  simp only [List.mem_append, mem_if_singleton]
  constructor
  · rintro (((⟨⟨hc, hv⟩, rfl⟩ | ⟨⟨hc, hv⟩, rfl⟩) | ⟨⟨hc, hv⟩, rfl⟩) | ⟨⟨hc, hv⟩, rfl⟩)
    · exact ⟨⟨by dsimp only <;> omega, by dsimp only <;> omega, by dsimp only <;> omega,
          by dsimp only <;> omega⟩,
        Or.inr (Or.inr (Or.inr ⟨by dsimp only <;> omega, by dsimp only <;> omega⟩)),
        by simpa using hv⟩
    · exact ⟨⟨by dsimp only <;> omega, by dsimp only <;> omega, by dsimp only <;> omega,
          by dsimp only <;> omega⟩,
        Or.inl ⟨by dsimp only <;> omega, by dsimp only <;> omega⟩, by simpa using hv⟩
    · exact ⟨⟨by dsimp only <;> omega, by dsimp only <;> omega, by dsimp only <;> omega,
          by dsimp only <;> omega⟩,
        Or.inr (Or.inr (Or.inl ⟨by dsimp only <;> omega, by dsimp only <;> omega⟩)),
        by simpa using hv⟩
    · exact ⟨⟨by dsimp only <;> omega, by dsimp only <;> omega, by dsimp only <;> omega,
          by dsimp only <;> omega⟩,
        Or.inr (Or.inl ⟨by dsimp only <;> omega, by dsimp only <;> omega⟩), by simpa using hv⟩
  · rintro ⟨⟨hqx0, hqxw, hqy0, hqyh⟩, hadj, hvis⟩
    obtain ⟨qx, qy⟩ := q
    simp only at hqx0 hqxw hqy0 hqyh hvis
    rcases hadj with ⟨h1, h2⟩ | ⟨h1, h2⟩ | ⟨h1, h2⟩ | ⟨h1, h2⟩ <;> simp only at h1 h2
    · have e1 : qx = p.x + 1 := h1
      have e2 : qy = p.y := h2
      subst e1; subst e2
      exact Or.inl (Or.inl (Or.inr ⟨⟨by omega, by simp [hvis]⟩, rfl⟩))
    · have e1 : qx = p.x - 1 := by omega
      have e2 : qy = p.y := by omega
      subst e1; subst e2
      exact Or.inr ⟨⟨by omega, by simp [hvis]⟩, rfl⟩
    · have e1 : qy = p.y + 1 := h1
      have e2 : qx = p.x := h2
      subst e1; subst e2
      exact Or.inl (Or.inr ⟨⟨by omega, by simp [hvis]⟩, rfl⟩)
    · have e1 : qy = p.y - 1 := by omega
      have e2 : qx = p.x := by omega
      subst e1; subst e2
      exact Or.inl (Or.inl (Or.inl ⟨⟨by omega, by simp [hvis]⟩, rfl⟩))

theorem removeWalls_right (m : Maze) (cur : Point) :
    removeWalls m cur ⟨cur.x + 1, cur.y⟩ =
      modifyCell
        (modifyCell m cur (fun c => { c with walls := { c.walls with right := false } }))
        ⟨cur.x + 1, cur.y⟩ (fun c => { c with walls := { c.walls with left := false } }) := by
  simp only [removeWalls]
  norm_num

theorem removeWalls_left (m : Maze) (cur : Point) :
    removeWalls m cur ⟨cur.x - 1, cur.y⟩ =
      modifyCell
        (modifyCell m cur (fun c => { c with walls := { c.walls with left := false } }))
        ⟨cur.x - 1, cur.y⟩ (fun c => { c with walls := { c.walls with right := false } }) := by
  simp only [removeWalls]
  norm_num

theorem removeWalls_down (m : Maze) (cur : Point) :
    removeWalls m cur ⟨cur.x, cur.y + 1⟩ =
      modifyCell
        (modifyCell m cur (fun c => { c with walls := { c.walls with bottom := false } }))
        ⟨cur.x, cur.y + 1⟩ (fun c => { c with walls := { c.walls with top := false } }) := by
  simp only [removeWalls]
  norm_num

theorem removeWalls_up (m : Maze) (cur : Point) :
    removeWalls m cur ⟨cur.x, cur.y - 1⟩ =
      modifyCell
        (modifyCell m cur (fun c => { c with walls := { c.walls with top := false } }))
        ⟨cur.x, cur.y - 1⟩ (fun c => { c with walls := { c.walls with bottom := false } }) := by
  simp only [removeWalls]
  norm_num

theorem cells_length_modifyCell (m : Maze) (p : Point) (f : Cell → Cell) :
    (modifyCell m p f).cells.length = m.cells.length := by
  show (m.cells.set _ _).length = _
  rw [List.length_set]

theorem getCell_modify3 (m : Maze) (a b : Point) (fa fb fc : Cell → Cell)
    (hs : ShapeWF m) (ha : InB m.width m.height a) (hb : InB m.width m.height b)
    (hab : a ≠ b) :
    (∀ r : Point, InB m.width m.height r →
      getCell (modifyCell (modifyCell (modifyCell m a fa) b fb) b fc) r.x r.y =
        (if r = a then fa (getCell m r.x r.y)
         else if r = b then fc (fb (getCell m r.x r.y))
         else getCell m r.x r.y)) ∧
    ShapeWF (modifyCell (modifyCell (modifyCell m a fa) b fb) b fc) ∧
    (modifyCell (modifyCell (modifyCell m a fa) b fb) b fc).width = m.width ∧
    (modifyCell (modifyCell (modifyCell m a fa) b fb) b fc).height = m.height := by
  have hay : a.y.toNat < m.cells.length := by
    obtain ⟨-, -, h3, h4⟩ := ha
    obtain ⟨h1, -⟩ := hs
    omega
  have hby : b.y.toNat < m.cells.length := by
    obtain ⟨-, -, h3, h4⟩ := hb
    obtain ⟨h1, -⟩ := hs
    omega
  have hs1 : ShapeWF (modifyCell m a fa) := shapeWF_modifyCell m a fa hs hay
  have hs2 : ShapeWF (modifyCell (modifyCell m a fa) b fb) :=
    shapeWF_modifyCell _ b fb hs1 (by rw [cells_length_modifyCell]; exact hby)
  have hlen3 : b.y.toNat < (modifyCell (modifyCell m a fa) b fb).cells.length := by
    rw [cells_length_modifyCell, cells_length_modifyCell]
    exact hby
  have hs3 : ShapeWF (modifyCell (modifyCell (modifyCell m a fa) b fb) b fc) :=
    shapeWF_modifyCell _ b fc hs2 hlen3
  refine ⟨?_, hs3, rfl, rfl⟩
  intro r hr
  by_cases hra : r = a
  · subst hra
    rw [if_pos rfl]
    rw [getCell_modifyCell_ne _ b r fc hs2 hb hr hab,
      getCell_modifyCell_ne _ b r fb hs1 hb hr hab,
      getCell_modifyCell_self m r fa hs hr]
  · rw [if_neg hra]
    by_cases hrb : r = b
    · subst hrb
      rw [if_pos rfl]
      rw [getCell_modifyCell_self _ r fc hs2 hr, getCell_modifyCell_self _ r fb hs1 hr,
        getCell_modifyCell_ne m a r fa hs ha hr hra]
    · rw [if_neg hrb]
      rw [getCell_modifyCell_ne _ b r fc hs2 hb hr hrb,
        getCell_modifyCell_ne _ b r fb hs1 hb hr hrb,
        getCell_modifyCell_ne m a r fa hs ha hr hra]

theorem bool_eq_of_false_iff {a b : Bool} (h : (a = false) ↔ (b = false)) : a = b := by
  cases a <;> cases b <;> simp_all

theorem wallSymm_point_h (g : Maze) (hsym : WallSymm g) (p : Point)
    (hp : InB g.width g.height p) (hx : p.x + 1 < (g.width : Int)) :
    (getCell g p.x p.y).walls.right = (getCell g (p.x + 1) p.y).walls.left := by
  obtain ⟨hx0, hxw, hy0, hyh⟩ := hp
  have h1 := hsym.1 p.x.toNat p.y.toNat (by omega) (by omega)
  rw [Int.toNat_of_nonneg hx0, Int.toNat_of_nonneg hy0] at h1
  exact h1

theorem wallSymm_point_v (g : Maze) (hsym : WallSymm g) (p : Point)
    (hp : InB g.width g.height p) (hy : p.y + 1 < (g.height : Int)) :
    (getCell g p.x p.y).walls.bottom = (getCell g p.x (p.y + 1)).walls.top := by
  obtain ⟨hx0, hxw, hy0, hyh⟩ := hp
  have h1 := hsym.2 p.x.toNat p.y.toNat (by omega) (by omega)
  rw [Int.toNat_of_nonneg hx0, Int.toNat_of_nonneg hy0] at h1
  exact h1

theorem edgeOpen_flip (w h : Nat) (m m2 : Maze) (cur nxt c0 : Point) (horiz : Bool)
    (hmw : m.width = w) (hmh : m.height = h) (h2w : m2.width = w) (h2h : m2.height = h)
    (hcin : InB w h cur) (hnin : InB w h nxt)
    (hc0 : (horiz = true → (c0 = cur ∧ nxt = ⟨c0.x + 1, c0.y⟩) ∨
              (c0 = nxt ∧ cur = ⟨c0.x + 1, c0.y⟩)) ∧
           (horiz = false → (c0 = cur ∧ nxt = ⟨c0.x, c0.y + 1⟩) ∨
              (c0 = nxt ∧ cur = ⟨c0.x, c0.y + 1⟩)))
    (hHE : ∀ p : Point, InB w h p → (hEdge m2 p ↔ (hEdge m p ∨ (horiz = true ∧ p = c0))))
    (hVE : ∀ p : Point, InB w h p → (vEdge m2 p ↔ (vEdge m p ∨ (horiz = false ∧ p = c0)))) :
    ∀ p q : Point, edgeOpen m2 p q ↔
      (edgeOpen m p q ∨ (p = cur ∧ q = nxt) ∨ (p = nxt ∧ q = cur)) := by
  intro p q
  unfold edgeOpen
  rw [hmw, hmh, h2w, h2h]
  constructor
  · rintro ⟨hp, hq, hd⟩
    rcases hd with ⟨he, hf⟩ | ⟨he, hf⟩ | ⟨he, hf⟩ | ⟨he, hf⟩
    · rcases (hHE p hp).mp hf with hold | ⟨hh, rfl⟩
      · exact Or.inl ⟨hp, hq, Or.inl ⟨he, hold⟩⟩
      · rcases hc0.1 hh with ⟨rfl, hn⟩ | ⟨rfl, hn⟩
        · exact Or.inr (Or.inl ⟨rfl, by rw [he, ← hn]⟩)
        · exact Or.inr (Or.inr ⟨rfl, by rw [he, ← hn]⟩)
    · rcases (hHE q hq).mp hf with hold | ⟨hh, rfl⟩
      · exact Or.inl ⟨hp, hq, Or.inr (Or.inl ⟨he, hold⟩)⟩
      · rcases hc0.1 hh with ⟨rfl, hn⟩ | ⟨rfl, hn⟩
        · exact Or.inr (Or.inr ⟨by rw [he, ← hn], rfl⟩)
        · exact Or.inr (Or.inl ⟨by rw [he, ← hn], rfl⟩)
    · rcases (hVE p hp).mp hf with hold | ⟨hh, rfl⟩
      · exact Or.inl ⟨hp, hq, Or.inr (Or.inr (Or.inl ⟨he, hold⟩))⟩
      · rcases hc0.2 (by simpa using hh) with ⟨rfl, hn⟩ | ⟨rfl, hn⟩
        · exact Or.inr (Or.inl ⟨rfl, by rw [he, ← hn]⟩)
        · exact Or.inr (Or.inr ⟨rfl, by rw [he, ← hn]⟩)
    · rcases (hVE q hq).mp hf with hold | ⟨hh, rfl⟩
      · exact Or.inl ⟨hp, hq, Or.inr (Or.inr (Or.inr ⟨he, hold⟩))⟩
      · rcases hc0.2 (by simpa using hh) with ⟨rfl, hn⟩ | ⟨rfl, hn⟩
        · exact Or.inr (Or.inr ⟨by rw [he, ← hn], rfl⟩)
        · exact Or.inr (Or.inl ⟨by rw [he, ← hn], rfl⟩)
  · rintro (⟨hp, hq, hd⟩ | ⟨rfl, rfl⟩ | ⟨rfl, rfl⟩)
    · refine ⟨hp, hq, ?_⟩
      rcases hd with ⟨he, hf⟩ | ⟨he, hf⟩ | ⟨he, hf⟩ | ⟨he, hf⟩
      · exact Or.inl ⟨he, (hHE p hp).mpr (Or.inl hf)⟩
      · exact Or.inr (Or.inl ⟨he, (hHE q hq).mpr (Or.inl hf)⟩)
      · exact Or.inr (Or.inr (Or.inl ⟨he, (hVE p hp).mpr (Or.inl hf)⟩))
      · exact Or.inr (Or.inr (Or.inr ⟨he, (hVE q hq).mpr (Or.inl hf)⟩))
    · refine ⟨hcin, hnin, ?_⟩
      cases horiz with
      | true =>
        rcases hc0.1 rfl with ⟨rfl, hn⟩ | ⟨rfl, hn⟩
        · exact Or.inl ⟨hn, (hHE _ hcin).mpr (Or.inr ⟨rfl, rfl⟩)⟩
        · exact Or.inr (Or.inl ⟨hn, (hHE _ hnin).mpr (Or.inr ⟨rfl, rfl⟩)⟩)
      | false =>
        rcases hc0.2 rfl with ⟨rfl, hn⟩ | ⟨rfl, hn⟩
        · exact Or.inr (Or.inr (Or.inl ⟨hn, (hVE _ hcin).mpr (Or.inr ⟨rfl, rfl⟩)⟩))
        · exact Or.inr (Or.inr (Or.inr ⟨hn, (hVE _ hnin).mpr (Or.inr ⟨rfl, rfl⟩)⟩))
    · refine ⟨hnin, hcin, ?_⟩
      cases horiz with
      | true =>
        rcases hc0.1 rfl with ⟨rfl, hn⟩ | ⟨rfl, hn⟩
        · exact Or.inr (Or.inl ⟨hn, (hHE _ hcin).mpr (Or.inr ⟨rfl, rfl⟩)⟩)
        · exact Or.inl ⟨hn, (hHE _ hnin).mpr (Or.inr ⟨rfl, rfl⟩)⟩
      | false =>
        rcases hc0.2 rfl with ⟨rfl, hn⟩ | ⟨rfl, hn⟩
        · exact Or.inr (Or.inr (Or.inr ⟨hn, (hVE _ hcin).mpr (Or.inr ⟨rfl, rfl⟩)⟩))
        · exact Or.inr (Or.inr (Or.inl ⟨hn, (hVE _ hnin).mpr (Or.inr ⟨rfl, rfl⟩)⟩))

theorem oCount_push (w h : Nat) (m m2 : Maze) (cur nxt c0 : Point) (horiz : Bool)
    (hmw : m.width = w) (hmh : m.height = h) (h2w : m2.width = w) (h2h : m2.height = h)
    (hcin : InB w h cur) (hnin : InB w h nxt)
    (hc0 : (horiz = true → (c0 = cur ∧ nxt = ⟨c0.x + 1, c0.y⟩) ∨
              (c0 = nxt ∧ cur = ⟨c0.x + 1, c0.y⟩)) ∧
           (horiz = false → (c0 = cur ∧ nxt = ⟨c0.x, c0.y + 1⟩) ∨
              (c0 = nxt ∧ cur = ⟨c0.x, c0.y + 1⟩)))
    (hHE : ∀ p : Point, InB w h p → (hEdge m2 p ↔ (hEdge m p ∨ (horiz = true ∧ p = c0))))
    (hVE : ∀ p : Point, InB w h p → (vEdge m2 p ↔ (vEdge m p ∨ (horiz = false ∧ p = c0))))
    (holdH : horiz = true → ¬hEdge m c0)
    (holdV : horiz = false → ¬vEdge m c0) :
    oCount m2 = oCount m + 1 := by
  have hc0in : InB w h c0 := by
    cases horiz with
    | true => rcases hc0.1 rfl with ⟨rfl, -⟩ | ⟨rfl, -⟩ <;> assumption
    | false => rcases hc0.2 rfl with ⟨rfl, -⟩ | ⟨rfl, -⟩ <;> assumption
  unfold oCount
  rw [hmw, hmh, h2w, h2h]
  cases horiz with
  | true =>
    have hc0b : InB (w - 1) h c0 := by
      rcases hc0.1 rfl with ⟨rfl, hn⟩ | ⟨rfl, hn⟩
      · obtain ⟨a1, a2, a3, a4⟩ := hc0in
        obtain ⟨b1, b2, b3, b4⟩ := hnin
        have hx : nxt.x = c0.x + 1 := by rw [hn]
        exact ⟨a1, by omega, a3, a4⟩
      · obtain ⟨a1, a2, a3, a4⟩ := hc0in
        obtain ⟨b1, b2, b3, b4⟩ := hcin
        have hx : cur.x = c0.x + 1 := by rw [hn]
        exact ⟨a1, by omega, a3, a4⟩
    have hinlift : ∀ p : Point, p ∈ allPoints (w - 1) h → InB w h p := by
      intro p hp
      obtain ⟨a1, a2, a3, a4⟩ := (mem_allPoints _ _ p).mp hp
      exact ⟨a1, by omega, a3, a4⟩
    have hflip : (allPoints (w - 1) h).countP (fun p => !(getCell m2 p.x p.y).walls.right) =
        (allPoints (w - 1) h).countP (fun p => !(getCell m p.x p.y).walls.right) + 1 := by
      apply countP_flip _ (allPoints_nodup _ _) c0 ((mem_allPoints _ _ c0).mpr hc0b)
      · have := holdH rfl
        unfold hEdge at this
        rcases hb : (getCell m c0.x c0.y).walls.right with - | -
        · exact absurd hb this
        · simp
      · have : hEdge m2 c0 := (hHE c0 hc0in).mpr (Or.inr ⟨rfl, rfl⟩)
        unfold hEdge at this
        rw [this]
        rfl
      · intro b hb hbne
        have hiff := hHE b (hinlift b hb)
        have : hEdge m2 b ↔ hEdge m b := by
          rw [hiff]
          simp [hbne]
        unfold hEdge at this
        rw [bool_eq_of_false_iff this]
    have hsame : (allPoints w (h - 1)).countP (fun p => !(getCell m2 p.x p.y).walls.bottom) =
        (allPoints w (h - 1)).countP (fun p => !(getCell m p.x p.y).walls.bottom) := by
      apply countP_congr_eq
      intro p hp
      obtain ⟨a1, a2, a3, a4⟩ := (mem_allPoints _ _ p).mp hp
      have hiff := hVE p ⟨a1, a2, a3, by omega⟩
      have : vEdge m2 p ↔ vEdge m p := by
        rw [hiff]
        simp
      unfold vEdge at this
      rw [bool_eq_of_false_iff this]
    omega
  | false =>
    have hc0b : InB w (h - 1) c0 := by
      rcases hc0.2 rfl with ⟨rfl, hn⟩ | ⟨rfl, hn⟩
      · obtain ⟨a1, a2, a3, a4⟩ := hc0in
        obtain ⟨b1, b2, b3, b4⟩ := hnin
        have hx : nxt.y = c0.y + 1 := by rw [hn]
        exact ⟨a1, a2, a3, by omega⟩
      · obtain ⟨a1, a2, a3, a4⟩ := hc0in
        obtain ⟨b1, b2, b3, b4⟩ := hcin
        have hx : cur.y = c0.y + 1 := by rw [hn]
        exact ⟨a1, a2, a3, by omega⟩
    have hinlift : ∀ p : Point, p ∈ allPoints w (h - 1) → InB w h p := by
      intro p hp
      obtain ⟨a1, a2, a3, a4⟩ := (mem_allPoints _ _ p).mp hp
      exact ⟨a1, a2, a3, by omega⟩
    have hflip : (allPoints w (h - 1)).countP (fun p => !(getCell m2 p.x p.y).walls.bottom) =
        (allPoints w (h - 1)).countP (fun p => !(getCell m p.x p.y).walls.bottom) + 1 := by
      apply countP_flip _ (allPoints_nodup _ _) c0 ((mem_allPoints _ _ c0).mpr hc0b)
      · have := holdV rfl
        unfold vEdge at this
        rcases hb : (getCell m c0.x c0.y).walls.bottom with - | -
        · exact absurd hb this
        · simp
      · have : vEdge m2 c0 := (hVE c0 hc0in).mpr (Or.inr ⟨rfl, rfl⟩)
        unfold vEdge at this
        rw [this]
        rfl
      · intro b hb hbne
        have hiff := hVE b (hinlift b hb)
        have : vEdge m2 b ↔ vEdge m b := by
          rw [hiff]
          simp [hbne]
        unfold vEdge at this
        rw [bool_eq_of_false_iff this]
    have hsame : (allPoints (w - 1) h).countP (fun p => !(getCell m2 p.x p.y).walls.right) =
        (allPoints (w - 1) h).countP (fun p => !(getCell m p.x p.y).walls.right) := by
      apply countP_congr_eq
      intro p hp
      obtain ⟨a1, a2, a3, a4⟩ := (mem_allPoints _ _ p).mp hp
      have hiff := hHE p ⟨a1, by omega, a3, a4⟩
      have : hEdge m2 p ↔ hEdge m p := by
        rw [hiff]
        simp
      unfold hEdge at this
      rw [bool_eq_of_false_iff this]
    omega

theorem genInv_push (w h : Nat) (m m2 : Maze) (cur nxt c0 : Point) (horiz : Bool)
    (stack : List Point)
    (inv : GenInv w h m (cur :: stack))
    (hnin : InB w h nxt) (hnvis : (getCell m nxt.x nxt.y).visited = false)
    (h2w : m2.width = w) (h2h : m2.height = h) (h2s : ShapeWF m2)
    (hunch : ∀ r : Point, InB w h r → r ≠ cur → r ≠ nxt →
      getCell m2 r.x r.y = getCell m r.x r.y)
    (hcurx : (getCell m2 cur.x cur.y).x = (getCell m cur.x cur.y).x)
    (hcury : (getCell m2 cur.x cur.y).y = (getCell m cur.x cur.y).y)
    (hcurv : (getCell m2 cur.x cur.y).visited = (getCell m cur.x cur.y).visited)
    (hnxtx : (getCell m2 nxt.x nxt.y).x = (getCell m nxt.x nxt.y).x)
    (hnxty : (getCell m2 nxt.x nxt.y).y = (getCell m nxt.x nxt.y).y)
    (hnxtv : (getCell m2 nxt.x nxt.y).visited = true)
    (hsymm2 : WallSymm m2)
    (hc0 : (horiz = true → (c0 = cur ∧ nxt = ⟨c0.x + 1, c0.y⟩) ∨
              (c0 = nxt ∧ cur = ⟨c0.x + 1, c0.y⟩)) ∧
           (horiz = false → (c0 = cur ∧ nxt = ⟨c0.x, c0.y + 1⟩) ∨
              (c0 = nxt ∧ cur = ⟨c0.x, c0.y + 1⟩)))
    (hHE : ∀ p : Point, InB w h p → (hEdge m2 p ↔ (hEdge m p ∨ (horiz = true ∧ p = c0))))
    (hVE : ∀ p : Point, InB w h p → (vEdge m2 p ↔ (vEdge m p ∨ (horiz = false ∧ p = c0)))) :
    GenInv w h m2 (nxt :: cur :: stack) := by
  have hcin : InB w h cur := inv.stack_inb cur (by simp)
  have hcvis : (getCell m cur.x cur.y).visited = true := inv.stack_vis cur (by simp)
  have hcn : cur ≠ nxt := by
    intro hcontra
    rw [hcontra, hnvis] at hcvis
    exact Bool.false_ne_true hcvis
  have hworigin : InB w h ⟨0, 0⟩ := by
    obtain ⟨a1, a2, a3, a4⟩ := hcin
    exact ⟨by simp, by dsimp only; omega, by simp, by dsimp only; omega⟩
  have hnorig : nxt ≠ (⟨0, 0⟩ : Point) := by
    intro hcontra
    rw [hcontra] at hnvis
    rw [inv.origin_vis] at hnvis
    exact Bool.false_ne_true hnvis.symm
  have hvislift : ∀ q : Point, InB w h q → (getCell m q.x q.y).visited = true →
      (getCell m2 q.x q.y).visited = true := by
    intro q hq hv
    by_cases hqc : q = cur
    · rw [hqc, hcurv]
      rw [hqc] at hv
      exact hv
    · by_cases hqn : q = nxt
      · rw [hqn, hnxtv]
      · rw [hunch q hq hqc hqn]
        exact hv
  have hvisdown : ∀ q : Point, InB w h q → (getCell m2 q.x q.y).visited = true →
      q = nxt ∨ (getCell m q.x q.y).visited = true := by
    intro q hq hv
    by_cases hqn : q = nxt
    · exact Or.inl hqn
    · by_cases hqc : q = cur
      · rw [hqc, hcurv] at hv
        rw [hqc]
        exact Or.inr hv
      · rw [hunch q hq hqc hqn] at hv
        exact Or.inr hv
  have hflip := edgeOpen_flip w h m m2 cur nxt c0 horiz inv.hwidth inv.hheight h2w h2h
    hcin hnin hc0 hHE hVE
  have holdH : horiz = true → ¬hEdge m c0 := by
    intro hh
    rcases hc0.1 hh with ⟨rfl, hn⟩ | ⟨rfl, hn⟩
    · intro hedge
      unfold hEdge at hedge
      have hb : c0.x + 1 < (m.width : Int) := by
        obtain ⟨-, a2, -, -⟩ := hnin
        rw [hn] at a2
        dsimp only at a2
        rw [inv.hwidth]
        exact a2
      have hsy := wallSymm_point_h m inv.symm c0 (by rw [inv.hwidth, inv.hheight]; exact hcin) hb
      have hintact := inv.intact nxt hnin hnvis
      rw [hn] at hintact
      dsimp only at hintact
      rw [hedge, hintact] at hsy
      exact Bool.false_ne_true hsy
    · intro hedge
      unfold hEdge at hedge
      have hintact := inv.intact c0 hnin hnvis
      rw [hintact] at hedge
      exact Bool.false_ne_true hedge.symm
  have holdV : horiz = false → ¬vEdge m c0 := by
    intro hh
    rcases hc0.2 hh with ⟨rfl, hn⟩ | ⟨rfl, hn⟩
    · intro hedge
      unfold vEdge at hedge
      have hb : c0.y + 1 < (m.height : Int) := by
        obtain ⟨-, -, -, a4⟩ := hnin
        rw [hn] at a4
        dsimp only at a4
        rw [inv.hheight]
        exact a4
      have hsy := wallSymm_point_v m inv.symm c0 (by rw [inv.hwidth, inv.hheight]; exact hcin) hb
      have hintact := inv.intact nxt hnin hnvis
      rw [hn] at hintact
      dsimp only at hintact
      rw [hedge, hintact] at hsy
      exact Bool.false_ne_true hsy
    · intro hedge
      unfold vEdge at hedge
      have hintact := inv.intact c0 hnin hnvis
      rw [hintact] at hedge
      exact Bool.false_ne_true hedge.symm
  refine ⟨h2w, h2h, h2s, ?_, hsymm2, ?_, ?_, ?_, ?_, ?_, ?_, ?_⟩
  · -- coords
    intro p hp
    by_cases hpc : p = cur
    · rw [hpc, hcurx, hcury]
      exact inv.coords cur hcin
    · by_cases hpn : p = nxt
      · rw [hpn, hnxtx, hnxty]
        exact inv.coords nxt hnin
      · rw [hunch p hp hpc hpn]
        exact inv.coords p hp
  · -- intact
    intro p hp hv
    have hpn : p ≠ nxt := by
      intro hcontra
      rw [hcontra, hnxtv] at hv
      exact Bool.false_ne_true hv.symm
    have hpc : p ≠ cur := by
      intro hcontra
      rw [hcontra, hcurv, hcvis] at hv
      exact Bool.false_ne_true hv.symm
    rw [hunch p hp hpc hpn] at hv ⊢
    exact inv.intact p hp hv
  · -- origin visited
    exact hvislift ⟨0, 0⟩ hworigin inv.origin_vis
  · -- stack in bounds
    intro p hp
    rcases List.mem_cons.mp hp with rfl | hp2
    · exact hnin
    · exact inv.stack_inb p hp2
  · -- stack visited
    intro p hp
    rcases List.mem_cons.mp hp with rfl | hp2
    · exact hnxtv
    · exact hvislift p (inv.stack_inb p hp2) (inv.stack_vis p hp2)
  · -- closure
    intro p hp hv hns q hq hadj
    have hpn : p ≠ nxt := by
      intro hcontra
      exact hns (by rw [hcontra]; simp)
    have hpc : p ≠ cur := by
      intro hcontra
      exact hns (by rw [hcontra]; simp)
    have hvm : (getCell m p.x p.y).visited = true := by
      rcases hvisdown p hp hv with hcontra | hok
      · exact absurd hcontra hpn
      · exact hok
    have hnstack : p ∉ cur :: stack := by
      intro hcontra
      exact hns (by simp [List.mem_cons.mp hcontra])
    exact hvislift q hq (inv.closure p hp hvm hnstack q hq hadj)
  · -- count
    have hoc : oCount m2 = oCount m + 1 :=
      oCount_push w h m m2 cur nxt c0 horiz inv.hwidth inv.hheight h2w h2h hcin hnin
        hc0 hHE hVE holdH holdV
    have hvc : vCount m2 = vCount m + 1 := by
      unfold vCount
      rw [inv.hwidth, inv.hheight, h2w, h2h]
      apply countP_flip _ (allPoints_nodup _ _) nxt ((mem_allPoints _ _ nxt).mpr hnin)
      · exact hnvis
      · exact hnxtv
      · intro b hb hbn
        have hbin := (mem_allPoints _ _ b).mp hb
        by_cases hbc : b = cur
        · rw [hbc]
          exact hcurv.symm
        · rw [hunch b hbin hbc hbn]
    have := inv.count
    omega
  · -- tree
    obtain ⟨rk, par, hpar, hchar⟩ := inv.tree
    refine ⟨Function.update rk nxt (rk cur + 1), Function.update par nxt cur, ?_, ?_⟩
    · intro p hp hv hporig
      by_cases hpn : p = nxt
      · subst hpn
        rw [Function.update_same, Function.update_same, Function.update_noteq hcn]
        refine ⟨hcin, hvislift cur hcin hcvis, by omega, ?_⟩
        exact (hflip p cur).mpr (Or.inr (Or.inr ⟨rfl, rfl⟩))
      · have hvm : (getCell m p.x p.y).visited = true := by
          rcases hvisdown p hp hv with hcontra | hok
          · exact absurd hcontra hpn
          · exact hok
        obtain ⟨hp1, hp2, hp3, hp4⟩ := hpar p hp hvm hporig
        have hparn : par p ≠ nxt := by
          intro hcontra
          rw [hcontra, hnvis] at hp2
          exact Bool.false_ne_true hp2
        have e1 : Function.update par nxt cur p = par p := Function.update_noteq hpn _ _
        have e2 : Function.update rk nxt (rk cur + 1) p = rk p := Function.update_noteq hpn _ _
        have e3 : Function.update rk nxt (rk cur + 1) (par p) = rk (par p) :=
          Function.update_noteq hparn _ _
        rw [e1, e2, e3]
        exact ⟨hp1, hvislift (par p) hp1 hp2, hp3, (hflip p (par p)).mpr (Or.inl hp4)⟩
    · intro p q hedge
      rcases (hflip p q).mp hedge with hold | ⟨rfl, rfl⟩ | ⟨rfl, rfl⟩
      · have hpin : InB w h p := by
          obtain ⟨e1, -, -⟩ := hold
          rw [inv.hwidth, inv.hheight] at e1
          exact e1
        have hqin : InB w h q := by
          obtain ⟨-, e2, -⟩ := hold
          rw [inv.hwidth, inv.hheight] at e2
          exact e2
        rcases hchar p q hold with ⟨hv1, hv2, hv3⟩ | ⟨hv1, hv2, hv3⟩
        · have hpn : p ≠ nxt := by
            intro hcontra
            rw [hcontra, hnvis] at hv1
            exact Bool.false_ne_true hv1
          refine Or.inl ⟨hvislift p hpin hv1, hv2, ?_⟩
          rw [Function.update_noteq hpn]
          exact hv3
        · have hqn : q ≠ nxt := by
            intro hcontra
            rw [hcontra, hnvis] at hv1
            exact Bool.false_ne_true hv1
          refine Or.inr ⟨hvislift q hqin hv1, hv2, ?_⟩
          rw [Function.update_noteq hqn]
          exact hv3
      · exact Or.inr ⟨hnxtv, hnorig, by rw [Function.update_same]⟩
      · exact Or.inl ⟨hnxtv, hnorig, by rw [Function.update_same]⟩

theorem push_case_right (w h : Nat) (m : Maze) (cur nxt : Point) (stack : List Point)
    (inv : GenInv w h m (cur :: stack))
    (hnx : nxt.x = cur.x + 1) (hny : nxt.y = cur.y)
    (hnin : InB w h nxt) (hnvis : (getCell m nxt.x nxt.y).visited = false) :
    GenInv w h (markVisited (removeWalls m cur nxt) nxt) (nxt :: cur :: stack) := by
  have hne : nxt = (⟨cur.x + 1, cur.y⟩ : Point) := by
    cases nxt
    simp only at hnx hny
    rw [hnx, hny]
  subst hne
  have hcin : InB w h cur := inv.stack_inb cur (by simp)
  have hcinm : InB m.width m.height cur := by rw [inv.hwidth, inv.hheight]; exact hcin
  have hninm : InB m.width m.height ⟨cur.x + 1, cur.y⟩ := by
    rw [inv.hwidth, inv.hheight]; exact hnin
  have hcn : cur ≠ (⟨cur.x + 1, cur.y⟩ : Point) := by
    intro hcontra
    have := congrArg Point.x hcontra
    simp only at this
    omega
  have key := getCell_modify3 m cur ⟨cur.x + 1, cur.y⟩
    (fun c => { c with walls := { c.walls with right := false } })
    (fun c => { c with walls := { c.walls with left := false } })
    (fun c => { c with visited := true }) inv.shape hcinm hninm hcn
  have hm2 : markVisited (removeWalls m cur ⟨cur.x + 1, cur.y⟩) ⟨cur.x + 1, cur.y⟩ =
      modifyCell (modifyCell (modifyCell m cur
          (fun c => { c with walls := { c.walls with right := false } }))
        ⟨cur.x + 1, cur.y⟩ (fun c => { c with walls := { c.walls with left := false } }))
        ⟨cur.x + 1, cur.y⟩ (fun c => { c with visited := true }) := by
    show modifyCell (removeWalls m cur ⟨cur.x + 1, cur.y⟩) _ _ = _
    rw [removeWalls_right]
  rw [hm2]
  set m2 := modifyCell (modifyCell (modifyCell m cur
      (fun c => { c with walls := { c.walls with right := false } }))
    ⟨cur.x + 1, cur.y⟩ (fun c => { c with walls := { c.walls with left := false } }))
    ⟨cur.x + 1, cur.y⟩ (fun c => { c with visited := true }) with hm2def
  have hdesc := key.1
  have h2w : m2.width = w := by rw [key.2.2.1, inv.hwidth]
  have h2h : m2.height = h := by rw [key.2.2.2, inv.hheight]
  have hgetm : ∀ r : Point, InB w h r → InB m.width m.height r := by
    intro r hr
    rw [inv.hwidth, inv.hheight]
    exact hr
  -- flag characterizations
  have hright : ∀ r : Point, InB w h r → (getCell m2 r.x r.y).walls.right =
      (if r = cur then false else (getCell m r.x r.y).walls.right) := by
    intro r hr
    rw [hdesc r (hgetm r hr)]
    by_cases h1 : r = cur
    · rw [if_pos h1, if_pos h1]
    · rw [if_neg h1, if_neg h1]
      by_cases h2 : r = ⟨cur.x + 1, cur.y⟩
      · rw [if_pos h2]
      · rw [if_neg h2]
  have hleft : ∀ r : Point, InB w h r → (getCell m2 r.x r.y).walls.left =
      (if r = (⟨cur.x + 1, cur.y⟩ : Point) then false else (getCell m r.x r.y).walls.left) := by
    intro r hr
    rw [hdesc r (hgetm r hr)]
    by_cases h2 : r = ⟨cur.x + 1, cur.y⟩
    · rw [if_pos h2, if_neg, if_pos h2]
      rw [h2]
      exact hcn.symm
    · rw [if_neg h2]
      by_cases h1 : r = cur
      · rw [if_pos h1, if_neg h2]
      · rw [if_neg h1, if_neg h2]
  have htop : ∀ r : Point, InB w h r → (getCell m2 r.x r.y).walls.top =
      (getCell m r.x r.y).walls.top := by
    intro r hr
    rw [hdesc r (hgetm r hr)]
    by_cases h1 : r = cur
    · rw [if_pos h1]
    · rw [if_neg h1]
      by_cases h2 : r = ⟨cur.x + 1, cur.y⟩
      · rw [if_pos h2]
      · rw [if_neg h2]
  have hbottom : ∀ r : Point, InB w h r → (getCell m2 r.x r.y).walls.bottom =
      (getCell m r.x r.y).walls.bottom := by
    intro r hr
    rw [hdesc r (hgetm r hr)]
    by_cases h1 : r = cur
    · rw [if_pos h1]
    · rw [if_neg h1]
      by_cases h2 : r = ⟨cur.x + 1, cur.y⟩
      · rw [if_pos h2]
      · rw [if_neg h2]
  have hmemP : ∀ x y : Nat, x < w → y < h → InB w h ⟨(x : Int), (y : Int)⟩ := by
    intro x y hx hy
    exact ⟨by simp, by dsimp only; omega, by simp, by dsimp only; omega⟩
  have hsymm2 : WallSymm m2 := by
    constructor
    · intro x y hx hy
      rw [h2w] at hx
      rw [h2h] at hy
      have hP : InB w h ⟨(x : Int), (y : Int)⟩ := hmemP x y (by omega) hy
      have hQ : InB w h ⟨(x : Int) + 1, (y : Int)⟩ := by
        refine ⟨by dsimp only <;> omega, by dsimp only <;> omega, by dsimp only <;> omega,
          by dsimp only <;> omega⟩
      have e1 := hright ⟨(x : Int), (y : Int)⟩ hP
      have e2 := hleft ⟨(x : Int) + 1, (y : Int)⟩ hQ
      dsimp only at e1 e2
      rw [e1, e2]
      by_cases h1 : (⟨(x : Int), (y : Int)⟩ : Point) = cur
      · rw [if_pos h1, if_pos (by rw [← h1])]
      · rw [if_neg h1, if_neg]
        · exact inv.symm.1 x y (by rw [inv.hwidth]; exact hx) (by rw [inv.hheight]; exact hy)
        · intro hcontra
          apply h1
          have hcx := congrArg Point.x hcontra
          have hcy := congrArg Point.y hcontra
          dsimp only at hcx hcy
          rw [Point.mk.injEq]
          exact ⟨by omega, by omega⟩
    · intro x y hx hy
      rw [h2w] at hx
      rw [h2h] at hy
      have hP : InB w h ⟨(x : Int), (y : Int)⟩ := hmemP x y hx (by omega)
      have hQ : InB w h ⟨(x : Int), (y : Int) + 1⟩ := by
        refine ⟨by dsimp only <;> omega, by dsimp only <;> omega, by dsimp only <;> omega,
          by dsimp only <;> omega⟩
      have e1 := hbottom ⟨(x : Int), (y : Int)⟩ hP
      have e2 := htop ⟨(x : Int), (y : Int) + 1⟩ hQ
      dsimp only at e1 e2
      rw [e1, e2]
      exact inv.symm.2 x y (by rw [inv.hwidth]; exact hx) (by rw [inv.hheight]; exact hy)
  apply genInv_push w h m m2 cur ⟨cur.x + 1, cur.y⟩ cur true stack inv hnin hnvis h2w h2h key.2.1
  · intro r hr hrc hrn
    rw [hdesc r (hgetm r hr), if_neg hrc, if_neg hrn]
  · rw [hdesc cur (hgetm cur hcin), if_pos rfl]
  · rw [hdesc cur (hgetm cur hcin), if_pos rfl]
  · rw [hdesc cur (hgetm cur hcin), if_pos rfl]
  · rw [hdesc _ (hgetm _ hnin), if_neg hcn.symm, if_pos rfl]
  · rw [hdesc _ (hgetm _ hnin), if_neg hcn.symm, if_pos rfl]
  · rw [hdesc _ (hgetm _ hnin), if_neg hcn.symm, if_pos rfl]
  · exact hsymm2
  · exact ⟨fun _ => Or.inl ⟨rfl, rfl⟩, fun hcontra => absurd hcontra (by simp)⟩
  · intro p hp
    unfold hEdge
    rw [hright p hp]
    constructor
    · intro hcond
      by_cases h1 : p = cur
      · exact Or.inr ⟨rfl, h1⟩
      · rw [if_neg h1] at hcond
        exact Or.inl hcond
    · rintro (hold | ⟨-, rfl⟩)
      · by_cases h1 : p = cur
        · rw [if_pos h1]
        · rw [if_neg h1]
          exact hold
      · rw [if_pos rfl]
  · intro p hp
    unfold vEdge
    rw [hbottom p hp]
    constructor
    · exact fun hc => Or.inl hc
    · rintro (hold | ⟨hcontra, -⟩)
      · exact hold
      · exact absurd hcontra (by simp)

theorem push_case_left (w h : Nat) (m : Maze) (cur nxt : Point) (stack : List Point)
    (inv : GenInv w h m (cur :: stack))
    (hnx : nxt.x = cur.x - 1) (hny : nxt.y = cur.y)
    (hnin : InB w h nxt) (hnvis : (getCell m nxt.x nxt.y).visited = false) :
    GenInv w h (markVisited (removeWalls m cur nxt) nxt) (nxt :: cur :: stack) := by
  have hne : nxt = (⟨cur.x - 1, cur.y⟩ : Point) := by
    cases nxt
    simp only at hnx hny
    rw [hnx, hny]
  subst hne
  have hcin : InB w h cur := inv.stack_inb cur (by simp)
  have hcinm : InB m.width m.height cur := by rw [inv.hwidth, inv.hheight]; exact hcin
  have hninm : InB m.width m.height ⟨cur.x - 1, cur.y⟩ := by
    rw [inv.hwidth, inv.hheight]; exact hnin
  have hcn : cur ≠ (⟨cur.x - 1, cur.y⟩ : Point) := by
    intro hcontra
    have := congrArg Point.x hcontra
    simp only at this
    omega
  have key := getCell_modify3 m cur ⟨cur.x - 1, cur.y⟩
    (fun c => { c with walls := { c.walls with left := false } })
    (fun c => { c with walls := { c.walls with right := false } })
    (fun c => { c with visited := true }) inv.shape hcinm hninm hcn
  have hm2 : markVisited (removeWalls m cur ⟨cur.x - 1, cur.y⟩) ⟨cur.x - 1, cur.y⟩ =
      modifyCell (modifyCell (modifyCell m cur
          (fun c => { c with walls := { c.walls with left := false } }))
        ⟨cur.x - 1, cur.y⟩ (fun c => { c with walls := { c.walls with right := false } }))
        ⟨cur.x - 1, cur.y⟩ (fun c => { c with visited := true }) := by
    show modifyCell (removeWalls m cur ⟨cur.x - 1, cur.y⟩) _ _ = _
    rw [removeWalls_left]
  rw [hm2]
  set m2 := modifyCell (modifyCell (modifyCell m cur
      (fun c => { c with walls := { c.walls with left := false } }))
    ⟨cur.x - 1, cur.y⟩ (fun c => { c with walls := { c.walls with right := false } }))
    ⟨cur.x - 1, cur.y⟩ (fun c => { c with visited := true }) with hm2def
  have hdesc := key.1
  have h2w : m2.width = w := by rw [key.2.2.1, inv.hwidth]
  have h2h : m2.height = h := by rw [key.2.2.2, inv.hheight]
  have hgetm : ∀ r : Point, InB w h r → InB m.width m.height r := by
    intro r hr
    rw [inv.hwidth, inv.hheight]
    exact hr
  have hright : ∀ r : Point, InB w h r → (getCell m2 r.x r.y).walls.right =
      (if r = (⟨cur.x - 1, cur.y⟩ : Point) then false else (getCell m r.x r.y).walls.right) := by
    intro r hr
    rw [hdesc r (hgetm r hr)]
    by_cases h2 : r = ⟨cur.x - 1, cur.y⟩
    · rw [if_pos h2, if_neg, if_pos h2]
      rw [h2]
      exact hcn.symm
    · rw [if_neg h2]
      by_cases h1 : r = cur
      · rw [if_pos h1, if_neg h2]
      · rw [if_neg h1, if_neg h2]
  have hleft : ∀ r : Point, InB w h r → (getCell m2 r.x r.y).walls.left =
      (if r = cur then false else (getCell m r.x r.y).walls.left) := by
    intro r hr
    rw [hdesc r (hgetm r hr)]
    by_cases h1 : r = cur
    · rw [if_pos h1, if_pos h1]
    · rw [if_neg h1, if_neg h1]
      by_cases h2 : r = ⟨cur.x - 1, cur.y⟩
      · rw [if_pos h2]
      · rw [if_neg h2]
  have htop : ∀ r : Point, InB w h r → (getCell m2 r.x r.y).walls.top =
      (getCell m r.x r.y).walls.top := by
    intro r hr
    rw [hdesc r (hgetm r hr)]
    by_cases h1 : r = cur
    · rw [if_pos h1]
    · rw [if_neg h1]
      by_cases h2 : r = ⟨cur.x - 1, cur.y⟩
      · rw [if_pos h2]
      · rw [if_neg h2]
  have hbottom : ∀ r : Point, InB w h r → (getCell m2 r.x r.y).walls.bottom =
      (getCell m r.x r.y).walls.bottom := by
    intro r hr
    rw [hdesc r (hgetm r hr)]
    by_cases h1 : r = cur
    · rw [if_pos h1]
    · rw [if_neg h1]
      by_cases h2 : r = ⟨cur.x - 1, cur.y⟩
      · rw [if_pos h2]
      · rw [if_neg h2]
  have hmemP : ∀ x y : Nat, x < w → y < h → InB w h ⟨(x : Int), (y : Int)⟩ := by
    intro x y hx hy
    exact ⟨by simp, by dsimp only; omega, by simp, by dsimp only; omega⟩
  have hcureq : cur = (⟨(⟨cur.x - 1, cur.y⟩ : Point).x + 1, (⟨cur.x - 1, cur.y⟩ : Point).y⟩ : Point) := by
    cases cur
    dsimp only
    rw [Point.mk.injEq]
    exact ⟨by ring, rfl⟩
  have hsymm2 : WallSymm m2 := by
    constructor
    · intro x y hx hy
      rw [h2w] at hx
      rw [h2h] at hy
      have hP : InB w h ⟨(x : Int), (y : Int)⟩ := hmemP x y (by omega) hy
      have hQ : InB w h ⟨(x : Int) + 1, (y : Int)⟩ := by
        refine ⟨by dsimp only <;> omega, by dsimp only <;> omega, by dsimp only <;> omega,
          by dsimp only <;> omega⟩
      have e1 := hright ⟨(x : Int), (y : Int)⟩ hP
      have e2 := hleft ⟨(x : Int) + 1, (y : Int)⟩ hQ
      dsimp only at e1 e2
      rw [e1, e2]
      by_cases h1 : (⟨(x : Int), (y : Int)⟩ : Point) = ⟨cur.x - 1, cur.y⟩
      · rw [if_pos h1, if_pos]
        have hcx := congrArg Point.x h1
        have hcy := congrArg Point.y h1
        dsimp only at hcx hcy
        rw [Point.mk.injEq]
        exact ⟨by omega, by omega⟩
      · rw [if_neg h1, if_neg]
        · exact inv.symm.1 x y (by rw [inv.hwidth]; exact hx) (by rw [inv.hheight]; exact hy)
        · intro hcontra
          apply h1
          have hcx := congrArg Point.x hcontra
          have hcy := congrArg Point.y hcontra
          dsimp only at hcx hcy
          rw [Point.mk.injEq]
          exact ⟨by omega, by omega⟩
    · intro x y hx hy
      rw [h2w] at hx
      rw [h2h] at hy
      have hP : InB w h ⟨(x : Int), (y : Int)⟩ := hmemP x y hx (by omega)
      have hQ : InB w h ⟨(x : Int), (y : Int) + 1⟩ := by
        refine ⟨by dsimp only <;> omega, by dsimp only <;> omega, by dsimp only <;> omega,
          by dsimp only <;> omega⟩
      have e1 := hbottom ⟨(x : Int), (y : Int)⟩ hP
      have e2 := htop ⟨(x : Int), (y : Int) + 1⟩ hQ
      dsimp only at e1 e2
      rw [e1, e2]
      exact inv.symm.2 x y (by rw [inv.hwidth]; exact hx) (by rw [inv.hheight]; exact hy)
  apply genInv_push w h m m2 cur ⟨cur.x - 1, cur.y⟩ ⟨cur.x - 1, cur.y⟩ true stack inv hnin hnvis
    h2w h2h key.2.1
  · intro r hr hrc hrn
    rw [hdesc r (hgetm r hr), if_neg hrc, if_neg hrn]
  · rw [hdesc cur (hgetm cur hcin), if_pos rfl]
  · rw [hdesc cur (hgetm cur hcin), if_pos rfl]
  · rw [hdesc cur (hgetm cur hcin), if_pos rfl]
  · rw [hdesc _ (hgetm _ hnin), if_neg hcn.symm, if_pos rfl]
  · rw [hdesc _ (hgetm _ hnin), if_neg hcn.symm, if_pos rfl]
  · rw [hdesc _ (hgetm _ hnin), if_neg hcn.symm, if_pos rfl]
  · exact hsymm2
  · exact ⟨fun _ => Or.inr ⟨rfl, hcureq⟩, fun hcontra => absurd hcontra (by simp)⟩
  · intro p hp
    unfold hEdge
    rw [hright p hp]
    constructor
    · intro hcond
      by_cases h1 : p = ⟨cur.x - 1, cur.y⟩
      · exact Or.inr ⟨rfl, h1⟩
      · rw [if_neg h1] at hcond
        exact Or.inl hcond
    · rintro (hold | ⟨-, rfl⟩)
      · by_cases h1 : p = ⟨cur.x - 1, cur.y⟩
        · rw [if_pos h1]
        · rw [if_neg h1]
          exact hold
      · rw [if_pos rfl]
  · intro p hp
    unfold vEdge
    rw [hbottom p hp]
    constructor
    · exact fun hc => Or.inl hc
    · rintro (hold | ⟨hcontra, -⟩)
      · exact hold
      · exact absurd hcontra (by simp)

theorem push_case_down (w h : Nat) (m : Maze) (cur nxt : Point) (stack : List Point)
    (inv : GenInv w h m (cur :: stack))
    (hnx : nxt.x = cur.x) (hny : nxt.y = cur.y + 1)
    (hnin : InB w h nxt) (hnvis : (getCell m nxt.x nxt.y).visited = false) :
    GenInv w h (markVisited (removeWalls m cur nxt) nxt) (nxt :: cur :: stack) := by
  have hne : nxt = (⟨cur.x, cur.y + 1⟩ : Point) := by
    cases nxt
    simp only at hnx hny
    rw [hnx, hny]
  subst hne
  have hcin : InB w h cur := inv.stack_inb cur (by simp)
  have hcinm : InB m.width m.height cur := by rw [inv.hwidth, inv.hheight]; exact hcin
  have hninm : InB m.width m.height ⟨cur.x, cur.y + 1⟩ := by
    rw [inv.hwidth, inv.hheight]; exact hnin
  have hcn : cur ≠ (⟨cur.x, cur.y + 1⟩ : Point) := by
    intro hcontra
    have := congrArg Point.y hcontra
    simp only at this
    omega
  have key := getCell_modify3 m cur ⟨cur.x, cur.y + 1⟩
    (fun c => { c with walls := { c.walls with bottom := false } })
    (fun c => { c with walls := { c.walls with top := false } })
    (fun c => { c with visited := true }) inv.shape hcinm hninm hcn
  have hm2 : markVisited (removeWalls m cur ⟨cur.x, cur.y + 1⟩) ⟨cur.x, cur.y + 1⟩ =
      modifyCell (modifyCell (modifyCell m cur
          (fun c => { c with walls := { c.walls with bottom := false } }))
        ⟨cur.x, cur.y + 1⟩ (fun c => { c with walls := { c.walls with top := false } }))
        ⟨cur.x, cur.y + 1⟩ (fun c => { c with visited := true }) := by
    show modifyCell (removeWalls m cur ⟨cur.x, cur.y + 1⟩) _ _ = _
    rw [removeWalls_down]
  rw [hm2]
  set m2 := modifyCell (modifyCell (modifyCell m cur
      (fun c => { c with walls := { c.walls with bottom := false } }))
    ⟨cur.x, cur.y + 1⟩ (fun c => { c with walls := { c.walls with top := false } }))
    ⟨cur.x, cur.y + 1⟩ (fun c => { c with visited := true }) with hm2def
  have hdesc := key.1
  have h2w : m2.width = w := by rw [key.2.2.1, inv.hwidth]
  have h2h : m2.height = h := by rw [key.2.2.2, inv.hheight]
  have hgetm : ∀ r : Point, InB w h r → InB m.width m.height r := by
    intro r hr
    rw [inv.hwidth, inv.hheight]
    exact hr
  have hbottom : ∀ r : Point, InB w h r → (getCell m2 r.x r.y).walls.bottom =
      (if r = cur then false else (getCell m r.x r.y).walls.bottom) := by
    intro r hr
    rw [hdesc r (hgetm r hr)]
    by_cases h1 : r = cur
    · rw [if_pos h1, if_pos h1]
    · rw [if_neg h1, if_neg h1]
      by_cases h2 : r = ⟨cur.x, cur.y + 1⟩
      · rw [if_pos h2]
      · rw [if_neg h2]
  have htop : ∀ r : Point, InB w h r → (getCell m2 r.x r.y).walls.top =
      (if r = (⟨cur.x, cur.y + 1⟩ : Point) then false else (getCell m r.x r.y).walls.top) := by
    intro r hr
    rw [hdesc r (hgetm r hr)]
    by_cases h2 : r = ⟨cur.x, cur.y + 1⟩
    · rw [if_pos h2, if_neg, if_pos h2]
      rw [h2]
      exact hcn.symm
    · rw [if_neg h2]
      by_cases h1 : r = cur
      · rw [if_pos h1, if_neg h2]
      · rw [if_neg h1, if_neg h2]
  have hright : ∀ r : Point, InB w h r → (getCell m2 r.x r.y).walls.right =
      (getCell m r.x r.y).walls.right := by
    intro r hr
    rw [hdesc r (hgetm r hr)]
    by_cases h1 : r = cur
    · rw [if_pos h1]
    · rw [if_neg h1]
      by_cases h2 : r = ⟨cur.x, cur.y + 1⟩
      · rw [if_pos h2]
      · rw [if_neg h2]
  have hleft : ∀ r : Point, InB w h r → (getCell m2 r.x r.y).walls.left =
      (getCell m r.x r.y).walls.left := by
    intro r hr
    rw [hdesc r (hgetm r hr)]
    by_cases h1 : r = cur
    · rw [if_pos h1]
    · rw [if_neg h1]
      by_cases h2 : r = ⟨cur.x, cur.y + 1⟩
      · rw [if_pos h2]
      · rw [if_neg h2]
  have hmemP : ∀ x y : Nat, x < w → y < h → InB w h ⟨(x : Int), (y : Int)⟩ := by
    intro x y hx hy
    exact ⟨by simp, by dsimp only; omega, by simp, by dsimp only; omega⟩
  have hsymm2 : WallSymm m2 := by
    constructor
    · intro x y hx hy
      rw [h2w] at hx
      rw [h2h] at hy
      have hP : InB w h ⟨(x : Int), (y : Int)⟩ := hmemP x y (by omega) hy
      have hQ : InB w h ⟨(x : Int) + 1, (y : Int)⟩ := by
        refine ⟨by dsimp only <;> omega, by dsimp only <;> omega, by dsimp only <;> omega,
          by dsimp only <;> omega⟩
      have e1 := hright ⟨(x : Int), (y : Int)⟩ hP
      have e2 := hleft ⟨(x : Int) + 1, (y : Int)⟩ hQ
      dsimp only at e1 e2
      rw [e1, e2]
      exact inv.symm.1 x y (by rw [inv.hwidth]; exact hx) (by rw [inv.hheight]; exact hy)
    · intro x y hx hy
      rw [h2w] at hx
      rw [h2h] at hy
      have hP : InB w h ⟨(x : Int), (y : Int)⟩ := hmemP x y hx (by omega)
      have hQ : InB w h ⟨(x : Int), (y : Int) + 1⟩ := by
        refine ⟨by dsimp only <;> omega, by dsimp only <;> omega, by dsimp only <;> omega,
          by dsimp only <;> omega⟩
      have e1 := hbottom ⟨(x : Int), (y : Int)⟩ hP
      have e2 := htop ⟨(x : Int), (y : Int) + 1⟩ hQ
      dsimp only at e1 e2
      rw [e1, e2]
      by_cases h1 : (⟨(x : Int), (y : Int)⟩ : Point) = cur
      · rw [if_pos h1, if_pos (by rw [← h1])]
      · rw [if_neg h1, if_neg]
        · exact inv.symm.2 x y (by rw [inv.hwidth]; exact hx) (by rw [inv.hheight]; exact hy)
        · intro hcontra
          apply h1
          have hcx := congrArg Point.x hcontra
          have hcy := congrArg Point.y hcontra
          dsimp only at hcx hcy
          rw [Point.mk.injEq]
          exact ⟨by omega, by omega⟩
  apply genInv_push w h m m2 cur ⟨cur.x, cur.y + 1⟩ cur false stack inv hnin hnvis h2w h2h key.2.1
  · intro r hr hrc hrn
    rw [hdesc r (hgetm r hr), if_neg hrc, if_neg hrn]
  · rw [hdesc cur (hgetm cur hcin), if_pos rfl]
  · rw [hdesc cur (hgetm cur hcin), if_pos rfl]
  · rw [hdesc cur (hgetm cur hcin), if_pos rfl]
  · rw [hdesc _ (hgetm _ hnin), if_neg hcn.symm, if_pos rfl]
  · rw [hdesc _ (hgetm _ hnin), if_neg hcn.symm, if_pos rfl]
  · rw [hdesc _ (hgetm _ hnin), if_neg hcn.symm, if_pos rfl]
  · exact hsymm2
  · exact ⟨fun hcontra => absurd hcontra (by simp), fun _ => Or.inl ⟨rfl, rfl⟩⟩
  · intro p hp
    unfold hEdge
    rw [hright p hp]
    constructor
    · exact fun hc => Or.inl hc
    · rintro (hold | ⟨hcontra, -⟩)
      · exact hold
      · exact absurd hcontra (by simp)
  · intro p hp
    unfold vEdge
    rw [hbottom p hp]
    constructor
    · intro hcond
      by_cases h1 : p = cur
      · exact Or.inr ⟨rfl, h1⟩
      · rw [if_neg h1] at hcond
        exact Or.inl hcond
    · rintro (hold | ⟨-, rfl⟩)
      · by_cases h1 : p = cur
        · rw [if_pos h1]
        · rw [if_neg h1]
          exact hold
      · rw [if_pos rfl]

theorem push_case_up (w h : Nat) (m : Maze) (cur nxt : Point) (stack : List Point)
    (inv : GenInv w h m (cur :: stack))
    (hnx : nxt.x = cur.x) (hny : nxt.y = cur.y - 1)
    (hnin : InB w h nxt) (hnvis : (getCell m nxt.x nxt.y).visited = false) :
    GenInv w h (markVisited (removeWalls m cur nxt) nxt) (nxt :: cur :: stack) := by
  have hne : nxt = (⟨cur.x, cur.y - 1⟩ : Point) := by
    cases nxt
    simp only at hnx hny
    rw [hnx, hny]
  subst hne
  have hcin : InB w h cur := inv.stack_inb cur (by simp)
  have hcinm : InB m.width m.height cur := by rw [inv.hwidth, inv.hheight]; exact hcin
  have hninm : InB m.width m.height ⟨cur.x, cur.y - 1⟩ := by
    rw [inv.hwidth, inv.hheight]; exact hnin
  have hcn : cur ≠ (⟨cur.x, cur.y - 1⟩ : Point) := by
    intro hcontra
    have := congrArg Point.y hcontra
    simp only at this
    omega
  have key := getCell_modify3 m cur ⟨cur.x, cur.y - 1⟩
    (fun c => { c with walls := { c.walls with top := false } })
    (fun c => { c with walls := { c.walls with bottom := false } })
    (fun c => { c with visited := true }) inv.shape hcinm hninm hcn
  have hm2 : markVisited (removeWalls m cur ⟨cur.x, cur.y - 1⟩) ⟨cur.x, cur.y - 1⟩ =
      modifyCell (modifyCell (modifyCell m cur
          (fun c => { c with walls := { c.walls with top := false } }))
        ⟨cur.x, cur.y - 1⟩ (fun c => { c with walls := { c.walls with bottom := false } }))
        ⟨cur.x, cur.y - 1⟩ (fun c => { c with visited := true }) := by
    show modifyCell (removeWalls m cur ⟨cur.x, cur.y - 1⟩) _ _ = _
    rw [removeWalls_up]
  rw [hm2]
  set m2 := modifyCell (modifyCell (modifyCell m cur
      (fun c => { c with walls := { c.walls with top := false } }))
    ⟨cur.x, cur.y - 1⟩ (fun c => { c with walls := { c.walls with bottom := false } }))
    ⟨cur.x, cur.y - 1⟩ (fun c => { c with visited := true }) with hm2def
  have hdesc := key.1
  have h2w : m2.width = w := by rw [key.2.2.1, inv.hwidth]
  have h2h : m2.height = h := by rw [key.2.2.2, inv.hheight]
  have hgetm : ∀ r : Point, InB w h r → InB m.width m.height r := by
    intro r hr
    rw [inv.hwidth, inv.hheight]
    exact hr
  have hbottom : ∀ r : Point, InB w h r → (getCell m2 r.x r.y).walls.bottom =
      (if r = (⟨cur.x, cur.y - 1⟩ : Point) then false else (getCell m r.x r.y).walls.bottom) := by
    intro r hr
    rw [hdesc r (hgetm r hr)]
    by_cases h2 : r = ⟨cur.x, cur.y - 1⟩
    · rw [if_pos h2, if_neg, if_pos h2]
      rw [h2]
      exact hcn.symm
    · rw [if_neg h2]
      by_cases h1 : r = cur
      · rw [if_pos h1, if_neg h2]
      · rw [if_neg h1, if_neg h2]
  have htop : ∀ r : Point, InB w h r → (getCell m2 r.x r.y).walls.top =
      (if r = cur then false else (getCell m r.x r.y).walls.top) := by
    intro r hr
    rw [hdesc r (hgetm r hr)]
    by_cases h1 : r = cur
    · rw [if_pos h1, if_pos h1]
    · rw [if_neg h1, if_neg h1]
      by_cases h2 : r = ⟨cur.x, cur.y - 1⟩
      · rw [if_pos h2]
      · rw [if_neg h2]
  have hright : ∀ r : Point, InB w h r → (getCell m2 r.x r.y).walls.right =
      (getCell m r.x r.y).walls.right := by
    intro r hr
    rw [hdesc r (hgetm r hr)]
    by_cases h1 : r = cur
    · rw [if_pos h1]
    · rw [if_neg h1]
      by_cases h2 : r = ⟨cur.x, cur.y - 1⟩
      · rw [if_pos h2]
      · rw [if_neg h2]
  have hleft : ∀ r : Point, InB w h r → (getCell m2 r.x r.y).walls.left =
      (getCell m r.x r.y).walls.left := by
    intro r hr
    rw [hdesc r (hgetm r hr)]
    by_cases h1 : r = cur
    · rw [if_pos h1]
    · rw [if_neg h1]
      by_cases h2 : r = ⟨cur.x, cur.y - 1⟩
      · rw [if_pos h2]
      · rw [if_neg h2]
  have hmemP : ∀ x y : Nat, x < w → y < h → InB w h ⟨(x : Int), (y : Int)⟩ := by
    intro x y hx hy
    exact ⟨by simp, by dsimp only; omega, by simp, by dsimp only; omega⟩
  have hcureq : cur =
      (⟨(⟨cur.x, cur.y - 1⟩ : Point).x, (⟨cur.x, cur.y - 1⟩ : Point).y + 1⟩ : Point) := by
    cases cur
    dsimp only
    rw [Point.mk.injEq]
    exact ⟨rfl, by ring⟩
  have hsymm2 : WallSymm m2 := by
    constructor
    · intro x y hx hy
      rw [h2w] at hx
      rw [h2h] at hy
      have hP : InB w h ⟨(x : Int), (y : Int)⟩ := hmemP x y (by omega) hy
      have hQ : InB w h ⟨(x : Int) + 1, (y : Int)⟩ := by
        refine ⟨by dsimp only <;> omega, by dsimp only <;> omega, by dsimp only <;> omega,
          by dsimp only <;> omega⟩
      have e1 := hright ⟨(x : Int), (y : Int)⟩ hP
      have e2 := hleft ⟨(x : Int) + 1, (y : Int)⟩ hQ
      dsimp only at e1 e2
      rw [e1, e2]
      exact inv.symm.1 x y (by rw [inv.hwidth]; exact hx) (by rw [inv.hheight]; exact hy)
    · intro x y hx hy
      rw [h2w] at hx
      rw [h2h] at hy
      have hP : InB w h ⟨(x : Int), (y : Int)⟩ := hmemP x y hx (by omega)
      have hQ : InB w h ⟨(x : Int), (y : Int) + 1⟩ := by
        refine ⟨by dsimp only <;> omega, by dsimp only <;> omega, by dsimp only <;> omega,
          by dsimp only <;> omega⟩
      have e1 := hbottom ⟨(x : Int), (y : Int)⟩ hP
      have e2 := htop ⟨(x : Int), (y : Int) + 1⟩ hQ
      dsimp only at e1 e2
      rw [e1, e2]
      by_cases h1 : (⟨(x : Int), (y : Int)⟩ : Point) = ⟨cur.x, cur.y - 1⟩
      · rw [if_pos h1, if_pos]
        have hcx := congrArg Point.x h1
        have hcy := congrArg Point.y h1
        dsimp only at hcx hcy
        rw [Point.mk.injEq]
        exact ⟨by omega, by omega⟩
      · rw [if_neg h1, if_neg]
        · exact inv.symm.2 x y (by rw [inv.hwidth]; exact hx) (by rw [inv.hheight]; exact hy)
        · intro hcontra
          apply h1
          have hcx := congrArg Point.x hcontra
          have hcy := congrArg Point.y hcontra
          dsimp only at hcx hcy
          rw [Point.mk.injEq]
          exact ⟨by omega, by omega⟩
  apply genInv_push w h m m2 cur ⟨cur.x, cur.y - 1⟩ ⟨cur.x, cur.y - 1⟩ false stack inv hnin hnvis
    h2w h2h key.2.1
  · intro r hr hrc hrn
    rw [hdesc r (hgetm r hr), if_neg hrc, if_neg hrn]
  · rw [hdesc cur (hgetm cur hcin), if_pos rfl]
  · rw [hdesc cur (hgetm cur hcin), if_pos rfl]
  · rw [hdesc cur (hgetm cur hcin), if_pos rfl]
  · rw [hdesc _ (hgetm _ hnin), if_neg hcn.symm, if_pos rfl]
  · rw [hdesc _ (hgetm _ hnin), if_neg hcn.symm, if_pos rfl]
  · rw [hdesc _ (hgetm _ hnin), if_neg hcn.symm, if_pos rfl]
  · exact hsymm2
  · exact ⟨fun hcontra => absurd hcontra (by simp), fun _ => Or.inr ⟨rfl, hcureq⟩⟩
  · intro p hp
    unfold hEdge
    rw [hright p hp]
    constructor
    · exact fun hc => Or.inl hc
    · rintro (hold | ⟨hcontra, -⟩)
      · exact hold
      · exact absurd hcontra (by simp)
  · intro p hp
    unfold vEdge
    rw [hbottom p hp]
    constructor
    · intro hcond
      by_cases h1 : p = ⟨cur.x, cur.y - 1⟩
      · exact Or.inr ⟨rfl, h1⟩
      · rw [if_neg h1] at hcond
        exact Or.inl hcond
    · rintro (hold | ⟨-, rfl⟩)
      · by_cases h1 : p = ⟨cur.x, cur.y - 1⟩
        · rw [if_pos h1]
        · rw [if_neg h1]
          exact hold
      · rw [if_pos rfl]

theorem genInv_pop (w h : Nat) (m : Maze) (cur : Point) (stack : List Point)
    (inv : GenInv w h m (cur :: stack))
    (hempty : getNeighbors cur m = []) : GenInv w h m stack := by
  refine ⟨inv.hwidth, inv.hheight, inv.shape, inv.coords, inv.symm, inv.intact,
    inv.origin_vis, ?_, ?_, ?_, inv.count, inv.tree⟩
  · intro p hp
    exact inv.stack_inb p (by simp [hp])
  · intro p hp
    exact inv.stack_vis p (by simp [hp])
  · intro p hpin hpvis hpstack q hqin hadj
    by_cases hpc : p = cur
    · subst hpc
      by_contra hqvis
      have hq : q ∈ getNeighbors p m := by
        rw [mem_getNeighbors m p q (by rw [inv.hwidth, inv.hheight]; exact hpin)]
        refine ⟨by rw [inv.hwidth, inv.hheight]; exact hqin, hadj, ?_⟩
        cases hvq : (getCell m q.x q.y).visited
        · rfl
        · exact absurd hvq hqvis
      rw [hempty] at hq
      exact absurd hq (List.not_mem_nil q)
    · exact inv.closure p hpin hpvis (by simp [hpc, hpstack]) q hqin hadj

theorem genInv_init (w h : Nat) (hw : 0 < w) (hh : 0 < h) :
    GenInv w h (markVisited (createMaze w h) ⟨0, 0⟩) [⟨0, 0⟩] := by
  have horig : InB w h ⟨0, 0⟩ := by
    refine ⟨by simp, by dsimp only; omega, by simp, by dsimp only; omega⟩
  have hwm : (createMaze w h).width = w := rfl
  have hhm : (createMaze w h).height = h := rfl
  have hs := shapeWF_createMaze w h
  have hin : ∀ p : Point, InB w h p → InB (createMaze w h).width (createMaze w h).height p := by
    intro p hp
    rw [hwm, hhm]
    exact hp
  have hget : ∀ p : Point, InB w h p →
      getCell (markVisited (createMaze w h) ⟨0, 0⟩) p.x p.y =
        (if p = ⟨0, 0⟩ then
          { createCell p.x p.y with visited := true }
         else createCell p.x p.y) := by
    intro p hp
    by_cases hpz : p = (⟨0, 0⟩ : Point)
    · rw [if_pos hpz]
      subst hpz
      show getCell (modifyCell _ _ _) _ _ = _
      rw [getCell_modifyCell_self _ _ _ hs (hin _ horig), getCell_createMaze w h _ horig]
    · rw [if_neg hpz]
      show getCell (modifyCell _ _ _) _ _ = _
      rw [getCell_modifyCell_ne _ _ _ _ hs (hin _ horig) (hin _ hp) hpz,
        getCell_createMaze w h _ hp]
  have hwalls : ∀ p : Point, InB w h p →
      (getCell (markVisited (createMaze w h) ⟨0, 0⟩) p.x p.y).walls =
        ({ top := true, right := true, bottom := true, left := true } : Walls) := by
    intro p hp
    rw [hget p hp]
    by_cases hpz : p = (⟨0, 0⟩ : Point)
    · rw [if_pos hpz]
      rfl
    · rw [if_neg hpz]
      rfl
  have hvis : ∀ p : Point, InB w h p →
      ((getCell (markVisited (createMaze w h) ⟨0, 0⟩) p.x p.y).visited = true ↔
        p = ⟨0, 0⟩) := by
    intro p hp
    rw [hget p hp]
    by_cases hpz : p = (⟨0, 0⟩ : Point)
    · rw [if_pos hpz]
      simp [hpz]
    · rw [if_neg hpz]
      simp [hpz]
      rfl
  have horigvis : (getCell (markVisited (createMaze w h) ⟨0, 0⟩) 0 0).visited = true := by
    have := (hvis ⟨0, 0⟩ horig).mpr rfl
    exact this
  refine ⟨rfl, rfl, ?_, ?_, ?_, ?_, horigvis, ?_, ?_, ?_, ?_, ?_⟩
  · refine shapeWF_modifyCell _ _ _ hs ?_
    have h1 := hs.1
    rw [hhm] at h1
    show (0 : Int).toNat < (createMaze w h).cells.length
    rw [h1]
    simpa using hh
  · intro p hp
    rw [hget p hp]
    by_cases hpz : p = (⟨0, 0⟩ : Point)
    · rw [if_pos hpz]
      exact ⟨rfl, rfl⟩
    · rw [if_neg hpz]
      exact ⟨rfl, rfl⟩
  · constructor
    · intro x y hx hy
      have hxw : x + 1 < w := hx
      have hyh : y < h := hy
      have hP : InB w h ⟨(x : Int), (y : Int)⟩ := by
        refine ⟨by simp, by dsimp only <;> omega, by simp, by dsimp only <;> omega⟩
      have hQ : InB w h ⟨(x : Int) + 1, (y : Int)⟩ := by
        refine ⟨by dsimp only <;> omega, by dsimp only <;> omega, by dsimp only <;> omega,
          by dsimp only <;> omega⟩
      have e1 := hwalls ⟨(x : Int), (y : Int)⟩ hP
      have e2 := hwalls ⟨(x : Int) + 1, (y : Int)⟩ hQ
      dsimp only at e1 e2
      rw [e1, e2]
    · intro x y hx hy
      have hxw : x < w := hx
      have hyh : y + 1 < h := hy
      have hP : InB w h ⟨(x : Int), (y : Int)⟩ := by
        refine ⟨by simp, by dsimp only <;> omega, by simp, by dsimp only <;> omega⟩
      have hQ : InB w h ⟨(x : Int), (y : Int) + 1⟩ := by
        refine ⟨by dsimp only <;> omega, by dsimp only <;> omega, by dsimp only <;> omega,
          by dsimp only <;> omega⟩
      have e1 := hwalls ⟨(x : Int), (y : Int)⟩ hP
      have e2 := hwalls ⟨(x : Int), (y : Int) + 1⟩ hQ
      dsimp only at e1 e2
      rw [e1, e2]
  · intro p hp _
    exact hwalls p hp
  · intro p hp
    simp only [List.mem_singleton] at hp
    subst hp
    exact horig
  · intro p hp
    simp only [List.mem_singleton] at hp
    subst hp
    exact horigvis
  · intro p hpin hpvis hpstack q _ _
    exfalso
    apply hpstack
    simp only [List.mem_singleton]
    exact (hvis p hpin).mp hpvis
  · have hoc : oCount (markVisited (createMaze w h) ⟨0, 0⟩) = 0 := by
      unfold oCount
      have hz1 : (allPoints (w - 1) h).countP
          (fun p => !(getCell (markVisited (createMaze w h) ⟨0, 0⟩) p.x p.y).walls.right) = 0 := by
        rw [List.countP_eq_zero]
        intro p hp
        have hpin : InB (w - 1) h p := (mem_allPoints _ _ p).mp hp
        obtain ⟨h1, h2, h3, h4⟩ := hpin
        have hpin2 : InB w h p := ⟨h1, by omega, h3, h4⟩
        rw [hwalls p hpin2]
        simp
      have hz2 : (allPoints w (h - 1)).countP
          (fun p => !(getCell (markVisited (createMaze w h) ⟨0, 0⟩) p.x p.y).walls.bottom) = 0 := by
        rw [List.countP_eq_zero]
        intro p hp
        have hpin : InB w (h - 1) p := (mem_allPoints _ _ p).mp hp
        obtain ⟨h1, h2, h3, h4⟩ := hpin
        have hpin2 : InB w h p := ⟨h1, h2, h3, by omega⟩
        rw [hwalls p hpin2]
        simp
      show (allPoints (w - 1) h).countP _ + (allPoints w (h - 1)).countP _ = 0
      rw [hz1, hz2]
    have hvc : vCount (markVisited (createMaze w h) ⟨0, 0⟩) = 1 := by
      have hshow : vCount (markVisited (createMaze w h) ⟨0, 0⟩) =
          (allPoints w h).countP
            (fun p => (getCell (markVisited (createMaze w h) ⟨0, 0⟩) p.x p.y).visited) := rfl
      rw [hshow]
      have hflip := countP_flip (allPoints w h) (allPoints_nodup w h) ⟨0, 0⟩
        ((mem_allPoints w h ⟨0, 0⟩).mpr horig)
        (fun _ => false)
        (fun p => (getCell (markVisited (createMaze w h) ⟨0, 0⟩) p.x p.y).visited)
        rfl horigvis ?_
      · rw [hflip]
        simp
      · intro b hb hbz
        have hbin : InB w h b := (mem_allPoints w h b).mp hb
        have hbv : (getCell (markVisited (createMaze w h) ⟨0, 0⟩) b.x b.y).visited = false := by
          cases hv : (getCell (markVisited (createMaze w h) ⟨0, 0⟩) b.x b.y).visited
          · rfl
          · exact absurd ((hvis b hbin).mp hv) hbz
        show false = (getCell (markVisited (createMaze w h) ⟨0, 0⟩) b.x b.y).visited
        rw [hbv]
    rw [hoc, hvc]
  · refine ⟨fun _ => 0, fun _ => ⟨0, 0⟩, ?_, ?_⟩
    · intro p hpin hpvis hpz
      exact absurd ((hvis p hpin).mp hpvis) hpz
    · intro p q hopen
      exfalso
      obtain ⟨hp, hq, hcase⟩ := hopen
      have hpw : InB w h p := hp
      have hqw : InB w h q := hq
      rcases hcase with ⟨-, he⟩ | ⟨-, he⟩ | ⟨-, he⟩ | ⟨-, he⟩
      · unfold hEdge at he
        rw [hwalls p hpw] at he
        exact Bool.false_ne_true he.symm
      · unfold hEdge at he
        rw [hwalls q hqw] at he
        exact Bool.false_ne_true he.symm
      · unfold vEdge at he
        rw [hwalls p hpw] at he
        exact Bool.false_ne_true he.symm
      · unfold vEdge at he
        rw [hwalls q hqw] at he
        exact Bool.false_ne_true he.symm

theorem vCount_two_mod_mark (m : Maze) (cur nxt : Point) (fa fb : Cell → Cell)
    (hfa : ∀ c, (fa c).visited = c.visited) (hfb : ∀ c, (fb c).visited = c.visited)
    (hs : ShapeWF m) (hcur : InB m.width m.height cur) (hnxt : InB m.width m.height nxt)
    (hnvis : (getCell m nxt.x nxt.y).visited = false) :
    vCount (markVisited (modifyCell (modifyCell m cur fa) nxt fb) nxt) = vCount m + 1 := by
  have hycur : cur.y.toNat < m.cells.length := by
    obtain ⟨-, -, h3, h4⟩ := hcur
    rw [hs.1]
    omega
  have hynxt : nxt.y.toNat < m.cells.length := by
    obtain ⟨-, -, h3, h4⟩ := hnxt
    rw [hs.1]
    omega
  have hsA : ShapeWF (modifyCell m cur fa) := shapeWF_modifyCell m cur fa hs hycur
  have hs1 : ShapeWF (modifyCell (modifyCell m cur fa) nxt fb) := by
    refine shapeWF_modifyCell _ nxt fb hsA ?_
    rw [cells_length_modifyCell]
    exact hynxt
  have hv1 : ∀ r : Point, InB m.width m.height r →
      (getCell (modifyCell (modifyCell m cur fa) nxt fb) r.x r.y).visited =
        (getCell m r.x r.y).visited := by
    intro r hr
    by_cases h2 : r = nxt
    · subst h2
      rw [getCell_modifyCell_self (modifyCell m cur fa) r fb hsA hr, hfb]
      by_cases h1 : r = cur
      · subst h1
        rw [getCell_modifyCell_self m r fa hs hr, hfa]
      · rw [getCell_modifyCell_ne m cur r fa hs hcur hr h1]
    · rw [getCell_modifyCell_ne (modifyCell m cur fa) nxt r fb hsA hnxt hr h2]
      by_cases h1 : r = cur
      · subst h1
        rw [getCell_modifyCell_self m r fa hs hr, hfa]
      · rw [getCell_modifyCell_ne m cur r fa hs hcur hr h1]
  have hshow : vCount (markVisited (modifyCell (modifyCell m cur fa) nxt fb) nxt) =
      (allPoints m.width m.height).countP
        (fun p => (getCell (markVisited (modifyCell (modifyCell m cur fa) nxt fb) nxt)
          p.x p.y).visited) := rfl
  have hshow2 : vCount m =
      (allPoints m.width m.height).countP (fun p => (getCell m p.x p.y).visited) := rfl
  rw [hshow, hshow2]
  refine countP_flip (allPoints m.width m.height) (allPoints_nodup _ _) nxt
    ((mem_allPoints _ _ nxt).mpr hnxt)
    (fun p => (getCell m p.x p.y).visited)
    (fun p => (getCell (markVisited (modifyCell (modifyCell m cur fa) nxt fb) nxt)
      p.x p.y).visited)
    hnvis ?_ ?_
  · show (getCell (markVisited (modifyCell (modifyCell m cur fa) nxt fb) nxt)
      nxt.x nxt.y).visited = true
    show (getCell (modifyCell (modifyCell (modifyCell m cur fa) nxt fb) nxt
      (fun c => { c with visited := true })) nxt.x nxt.y).visited = true
    rw [getCell_modifyCell_self _ nxt _ hs1 hnxt]
  · intro b hb hbz
    have hbin : InB m.width m.height b := (mem_allPoints _ _ b).mp hb
    show (getCell m b.x b.y).visited =
      (getCell (markVisited (modifyCell (modifyCell m cur fa) nxt fb) nxt) b.x b.y).visited
    show (getCell m b.x b.y).visited =
      (getCell (modifyCell (modifyCell (modifyCell m cur fa) nxt fb) nxt
        (fun c => { c with visited := true })) b.x b.y).visited
    rw [getCell_modifyCell_ne _ nxt b _ hs1 hnxt hbin hbz, hv1 b hbin]

theorem genLoop_zero (rand : Nat → Nat) (m : Maze) (stack : List Point) (steps : Nat) :
    genLoop rand 0 m stack steps = (m, stack) := rfl

theorem genLoop_nil (rand : Nat → Nat) (fuel : Nat) (m : Maze) (steps : Nat) :
    genLoop rand (fuel + 1) m [] steps = (m, []) := rfl

theorem genLoop_cons_pos (rand : Nat → Nat) (fuel : Nat) (m : Maze) (cur : Point)
    (rest : List Point) (steps : Nat) (hpos : 0 < (getNeighbors cur m).length) :
    genLoop rand (fuel + 1) m (cur :: rest) steps =
      genLoop rand fuel
        (markVisited (removeWalls m cur ((getNeighbors cur m).get
          ⟨rand steps % (getNeighbors cur m).length, Nat.mod_lt _ hpos⟩))
          ((getNeighbors cur m).get
            ⟨rand steps % (getNeighbors cur m).length, Nat.mod_lt _ hpos⟩))
        (((getNeighbors cur m).get
          ⟨rand steps % (getNeighbors cur m).length, Nat.mod_lt _ hpos⟩) :: cur :: rest)
        (steps + 1) := by
  simp only [genLoop]
  rw [dif_pos hpos]

theorem genLoop_cons_neg (rand : Nat → Nat) (fuel : Nat) (m : Maze) (cur : Point)
    (rest : List Point) (steps : Nat) (hpos : ¬0 < (getNeighbors cur m).length) :
    genLoop rand (fuel + 1) m (cur :: rest) steps =
      genLoop rand fuel m rest (steps + 1) := by
  simp only [genLoop]
  rw [dif_neg hpos]

theorem vCount_le (m : Maze) : vCount m ≤ m.height * m.width := by
  have h1 : vCount m ≤ (allPoints m.width m.height).length := List.countP_le_length _
  rwa [allPoints_length] at h1

theorem genLoop_spec (w h : Nat) (rand : Nat → Nat) :
    ∀ (fuel : Nat) (m : Maze) (stack : List Point) (steps : Nat),
      GenInv w h m stack →
      2 * (w * h - vCount m) + stack.length ≤ fuel →
      GenInv w h (genLoop rand fuel m stack steps).1 [] ∧
        (genLoop rand fuel m stack steps).2 = [] := by
  intro fuel
  induction fuel with
  | zero =>
    intro m stack steps inv hfuel
    have hlen : stack.length = 0 := by omega
    have hnil : stack = [] := List.length_eq_zero.mp hlen
    subst hnil
    rw [genLoop_zero]
    exact ⟨inv, rfl⟩
  | succ fuel ih =>
    intro m stack steps inv hfuel
    match stack, inv, hfuel with
    | [], inv, hfuel =>
      rw [genLoop_nil]
      exact ⟨inv, rfl⟩
    | cur :: rest, inv, hfuel =>
      by_cases hpos : 0 < (getNeighbors cur m).length
      · rw [genLoop_cons_pos rand fuel m cur rest steps hpos]
        set nxt := (getNeighbors cur m).get
          ⟨rand steps % (getNeighbors cur m).length, Nat.mod_lt _ hpos⟩ with hnd
        have hmem : nxt ∈ getNeighbors cur m := by
          rw [hnd]
          exact List.get_mem _ _ _
        clear_value nxt
        have hcurin : InB m.width m.height cur := by
          rw [inv.hwidth, inv.hheight]
          exact inv.stack_inb cur (by simp)
        rw [mem_getNeighbors m cur nxt hcurin] at hmem
        obtain ⟨hnin0, hadj, hnvis⟩ := hmem
        have hnin : InB w h nxt := by
          rw [inv.hwidth, inv.hheight] at hnin0
          exact hnin0
        have hstep : GenInv w h (markVisited (removeWalls m cur nxt) nxt)
              (nxt :: cur :: rest) ∧
            vCount (markVisited (removeWalls m cur nxt) nxt) = vCount m + 1 := by
          rcases hadj with ⟨h1, h2⟩ | ⟨h1, h2⟩ | ⟨h1, h2⟩ | ⟨h1, h2⟩
          · refine ⟨push_case_right w h m cur nxt rest inv h1 h2 hnin hnvis, ?_⟩
            have he : nxt = (⟨cur.x + 1, cur.y⟩ : Point) := by
              cases nxt
              simp only at h1 h2
              rw [h1, h2]
            rw [he] at hnvis hnin0 ⊢
            rw [removeWalls_right]
            exact vCount_two_mod_mark m cur _ _ _ (fun _ => rfl) (fun _ => rfl)
              inv.shape hcurin hnin0 hnvis
          · refine ⟨push_case_left w h m cur nxt rest inv (by omega) h2.symm hnin hnvis, ?_⟩
            have he : nxt = (⟨cur.x - 1, cur.y⟩ : Point) := by
              cases nxt
              simp only at h1 h2
              rw [Point.mk.injEq]
              constructor <;> omega
            rw [he] at hnvis hnin0 ⊢
            rw [removeWalls_left]
            exact vCount_two_mod_mark m cur _ _ _ (fun _ => rfl) (fun _ => rfl)
              inv.shape hcurin hnin0 hnvis
          · refine ⟨push_case_down w h m cur nxt rest inv h2 h1 hnin hnvis, ?_⟩
            have he : nxt = (⟨cur.x, cur.y + 1⟩ : Point) := by
              cases nxt
              simp only at h1 h2
              rw [h1, h2]
            rw [he] at hnvis hnin0 ⊢
            rw [removeWalls_down]
            exact vCount_two_mod_mark m cur _ _ _ (fun _ => rfl) (fun _ => rfl)
              inv.shape hcurin hnin0 hnvis
          · refine ⟨push_case_up w h m cur nxt rest inv h2.symm (by omega) hnin hnvis, ?_⟩
            have he : nxt = (⟨cur.x, cur.y - 1⟩ : Point) := by
              cases nxt
              simp only at h1 h2
              rw [Point.mk.injEq]
              constructor <;> omega
            rw [he] at hnvis hnin0 ⊢
            rw [removeWalls_up]
            exact vCount_two_mod_mark m cur _ _ _ (fun _ => rfl) (fun _ => rfl)
              inv.shape hcurin hnin0 hnvis
        obtain ⟨inv2, hv2⟩ := hstep
        have hle : vCount (markVisited (removeWalls m cur nxt) nxt) ≤ w * h := by
          have h1 := vCount_le (markVisited (removeWalls m cur nxt) nxt)
          rw [inv2.hwidth, inv2.hheight] at h1
          rw [Nat.mul_comm w h]
          exact h1
        apply ih (markVisited (removeWalls m cur nxt) nxt) (nxt :: cur :: rest) (steps + 1) inv2
        simp only [List.length_cons] at hfuel ⊢
        omega
      · rw [genLoop_cons_neg rand fuel m cur rest steps hpos]
        have hnil : getNeighbors cur m = [] := by
          cases hn : getNeighbors cur m with
          | nil => rfl
          | cons a t =>
            rw [hn] at hpos
            simp at hpos
        apply ih m rest (steps + 1) (genInv_pop w h m cur rest inv hnil)
        simp only [List.length_cons] at hfuel
        omega

theorem generateMazeAux_inv (w h d : Nat) (rand : Nat → Nat) (hw : 0 < w) (hh : 0 < h) :
    GenInv w h (generateMazeAux w h d rand).1 [] ∧ (generateMazeAux w h d rand).2 = [] := by
  have inv0 := genInv_init w h hw hh
  have hv1 : 1 ≤ vCount (markVisited (createMaze w h) ⟨0, 0⟩) := by
    have hc := inv0.count
    omega
  have hvle : vCount (markVisited (createMaze w h) ⟨0, 0⟩) ≤ h * w := by
    have h1 := vCount_le (markVisited (createMaze w h) ⟨0, 0⟩)
    rw [inv0.hwidth, inv0.hheight] at h1
    exact h1
  have hfuel : 2 * (w * h - vCount (markVisited (createMaze w h) ⟨0, 0⟩)) +
      ([(⟨0, 0⟩ : Point)] : List Point).length ≤ 2 * w * h := by
    simp only [List.length_cons, List.length_nil]
    have hmul : 2 * w * h = 2 * (w * h) := Nat.mul_assoc 2 w h
    have hmul2 : w * h = h * w := Nat.mul_comm w h
    omega
  exact genLoop_spec w h rand (2 * w * h) (markVisited (createMaze w h) ⟨0, 0⟩)
    [⟨0, 0⟩] 0 inv0 hfuel

theorem all_visited_of_empty_stack (w h : Nat) (m : Maze) (inv : GenInv w h m []) :
    ∀ p : Point, InB w h p → (getCell m p.x p.y).visited = true := by
  have key : ∀ n : Nat, ∀ p : Point, InB w h p → (p.x + p.y).toNat = n →
      (getCell m p.x p.y).visited = true := by
    intro n
    induction n using Nat.strong_induction_on with
    | _ n ih =>
      intro p hp hn
      by_cases hz : p = (⟨0, 0⟩ : Point)
      · subst hz
        exact inv.origin_vis
      · obtain ⟨h1, h2, h3, h4⟩ := hp
        have hxy : 0 < p.x ∨ 0 < p.y := by
          by_contra hc
          push_neg at hc
          apply hz
          have hx0 : p.x = 0 := le_antisymm hc.1 h1
          have hy0 : p.y = 0 := le_antisymm hc.2 h3
          cases p
          simp only at hx0 hy0
          rw [hx0, hy0]
        rcases hxy with hx | hy
        · have hqin : InB w h ⟨p.x - 1, p.y⟩ := by
            refine ⟨by dsimp only <;> omega, by dsimp only <;> omega, by dsimp only <;> omega,
              by dsimp only <;> omega⟩
          have hqvis : (getCell m (⟨p.x - 1, p.y⟩ : Point).x (⟨p.x - 1, p.y⟩ : Point).y).visited
              = true := by
            refine ih ((p.x - 1 + p.y).toNat) (by omega) ⟨p.x - 1, p.y⟩ hqin rfl
          have hadj : gridAdj ⟨p.x - 1, p.y⟩ p :=
            Or.inl ⟨by dsimp only <;> omega, by dsimp only <;> omega⟩
          exact inv.closure ⟨p.x - 1, p.y⟩ hqin hqvis (by simp) p ⟨h1, h2, h3, h4⟩ hadj
        · have hqin : InB w h ⟨p.x, p.y - 1⟩ := by
            refine ⟨by dsimp only <;> omega, by dsimp only <;> omega, by dsimp only <;> omega,
              by dsimp only <;> omega⟩
          have hqvis : (getCell m (⟨p.x, p.y - 1⟩ : Point).x (⟨p.x, p.y - 1⟩ : Point).y).visited
              = true := by
            refine ih ((p.x + (p.y - 1)).toNat) (by omega) ⟨p.x, p.y - 1⟩ hqin rfl
          have hadj : gridAdj ⟨p.x, p.y - 1⟩ p :=
            Or.inr (Or.inr (Or.inl ⟨by dsimp only <;> omega, by dsimp only <;> omega⟩))
          exact inv.closure ⟨p.x, p.y - 1⟩ hqin hqvis (by simp) p ⟨h1, h2, h3, h4⟩ hadj
  intro p hp
  exact key (p.x + p.y).toNat p hp rfl

theorem list_exists_max {α : Type} (f : α → Nat) :
    ∀ (l : List α), l ≠ [] → ∃ b ∈ l, ∀ a ∈ l, f a ≤ f b
  | [], hne => absurd rfl hne
  | [a], _ => ⟨a, by simp, by simp⟩
  | a :: b :: t, _ => by
    obtain ⟨c, hc, hcmax⟩ := list_exists_max f (b :: t) (by simp)
    by_cases hle : f a ≤ f c
    · refine ⟨c, by simp [hc], ?_⟩
      intro x hx
      rcases List.mem_cons.mp hx with rfl | hx2
      · exact hle
      · exact hcmax x hx2
    · refine ⟨a, by simp, ?_⟩
      intro x hx
      rcases List.mem_cons.mp hx with rfl | hx2
      · exact Nat.le_refl _
      · exact Nat.le_trans (hcmax x hx2) (by omega)

theorem isAcyclic_of_rank {V : Type} [DecidableEq V] (G : SimpleGraph V) (rk : V → Nat)
    (hdist : ∀ u v, G.Adj u v → rk u ≠ rk v)
    (huniq : ∀ u v x, G.Adj u v → G.Adj u x → rk v < rk u → rk x < rk u → v = x) :
    G.IsAcyclic := by
  intro v p hp
  obtain ⟨mx, hmx_mem, hmx_max⟩ :=
    list_exists_max rk p.support (by simp [SimpleGraph.Walk.support_ne_nil])
  have hq : (p.rotate hmx_mem).IsCycle := hp.rotate hmx_mem
  have hqmax : ∀ x ∈ (p.rotate hmx_mem).support, rk x ≤ rk mx := by
    intro x hx
    apply hmx_max
    rw [SimpleGraph.Walk.support_eq_cons] at hx
    rcases List.mem_cons.mp hx with rfl | hx2
    · exact hmx_mem
    · have hrot := SimpleGraph.Walk.support_rotate p hmx_mem
      have hx3 : x ∈ p.support.tail := (hrot.perm.mem_iff).mp hx2
      exact List.mem_of_mem_tail hx3
  generalize hQ : p.rotate hmx_mem = q at hq hqmax
  clear hQ hmx_mem hmx_max hp
  cases q with
  | nil => exact hq.ne_nil rfl
  | @cons _ b _ hadj r =>
    cases hrev : r.reverse with
    | nil =>
      have hbmx : r = SimpleGraph.Walk.nil := by
        have := congrArg SimpleGraph.Walk.reverse hrev
        rwa [SimpleGraph.Walk.reverse_reverse] at this
      cases hbmx
      exact G.loopless mx hadj
    | @cons _ c _ hadj2 r2 =>
      have hbmem : b ∈ (SimpleGraph.Walk.cons hadj r).support := by
        rw [SimpleGraph.Walk.support_cons]
        exact List.mem_cons_of_mem _ r.start_mem_support
      have hcmem : c ∈ (SimpleGraph.Walk.cons hadj r).support := by
        rw [SimpleGraph.Walk.support_cons]
        apply List.mem_cons_of_mem
        have hc1 : c ∈ r.reverse.support := by
          rw [hrev, SimpleGraph.Walk.support_cons]
          exact List.mem_cons_of_mem _ r2.start_mem_support
        rw [SimpleGraph.Walk.support_reverse] at hc1
        exact List.mem_reverse.mp hc1
      have hblt : rk b < rk mx := by
        have h1 := hqmax b hbmem
        have h2 := hdist mx b hadj
        omega
      have hclt : rk c < rk mx := by
        have h1 := hqmax c hcmem
        have h2 := hdist mx c hadj2
        omega
      have hbc : b = c := huniq mx b c hadj hadj2 hblt hclt
      subst hbc
      have hnodup : (SimpleGraph.Walk.cons hadj r).edges.Nodup :=
        hq.toIsCircuit.toIsTrail.edges_nodup
      rw [SimpleGraph.Walk.edges_cons] at hnodup
      have hmem : s(mx, b) ∈ r.edges := by
        have h1 : s(mx, b) ∈ r.reverse.edges := by
          rw [hrev, SimpleGraph.Walk.edges_cons]
          exact List.mem_cons_self _ _
        rw [SimpleGraph.Walk.edges_reverse] at h1
        exact List.mem_reverse.mp h1
      exact (List.nodup_cons.mp hnodup).1 hmem

theorem connected_of_inv (w h : Nat) (m : Maze) (hw : 0 < w) (hh : 0 < h)
    (inv : GenInv w h m []) : (mazeGraph m).Connected := by
  have hvisall := all_visited_of_empty_stack w h m inv
  obtain ⟨rk, par, ht1, ht2⟩ := inv.tree
  have horig : InB w h ⟨0, 0⟩ := by
    refine ⟨by simp, by dsimp only; omega, by simp, by dsimp only; omega⟩
  have horigm : InB m.width m.height ⟨0, 0⟩ := by
    rw [inv.hwidth, inv.hheight]
    exact horig
  have hreach : ∀ n : Nat, ∀ p : Point, ∀ hp : InB m.width m.height p, rk p = n →
      (mazeGraph m).Reachable ⟨p, hp⟩ ⟨⟨0, 0⟩, horigm⟩ := by
    intro n
    induction n using Nat.strong_induction_on with
    | _ n ih =>
      intro p hp hrk
      by_cases hz : p = (⟨0, 0⟩ : Point)
      · subst hz
        exact SimpleGraph.Reachable.refl _
      · have hpw : InB w h p := by
          rw [inv.hwidth, inv.hheight] at hp
          exact hp
        have hvp := hvisall p hpw
        obtain ⟨hparin, hparvis, hparrk, hedge⟩ := ht1 p hpw hvp hz
        have hparm : InB m.width m.height (par p) := by
          rw [inv.hwidth, inv.hheight]
          exact hparin
        have hadj : (mazeGraph m).Adj ⟨p, hp⟩ ⟨par p, hparm⟩ := hedge
        have hrec := ih (rk (par p)) (by omega) (par p) hparm rfl
        exact hadj.reachable.trans hrec
  rw [SimpleGraph.connected_iff]
  constructor
  · intro u v
    have h1 := hreach (rk u.val) u.val u.property rfl
    have h2 := hreach (rk v.val) v.val v.property rfl
    exact h1.trans h2.symm
  · exact ⟨⟨⟨0, 0⟩, horigm⟩⟩

theorem acyclic_of_inv (w h : Nat) (m : Maze) (inv : GenInv w h m []) :
    (mazeGraph m).IsAcyclic := by
  have hvisall := all_visited_of_empty_stack w h m inv
  obtain ⟨rk, par, ht1, ht2⟩ := inv.tree
  have hWH : ∀ p : Point, InB m.width m.height p → InB w h p := by
    intro p hp
    rw [inv.hwidth, inv.hheight] at hp
    exact hp
  have hlow : ∀ u v : Vtx m.width m.height, (mazeGraph m).Adj u v →
      rk v.val < rk u.val → v.val = par u.val := by
    intro u v hadj hlt
    have hedge : edgeOpen m u.val v.val := hadj
    rcases ht2 u.val v.val hedge with ⟨hvis1, hnz1, hpar1⟩ | ⟨hvis2, hnz2, hpar2⟩
    · exact hpar1.symm ▸ rfl
    · exfalso
      have hvw : InB w h v.val := by
        obtain ⟨-, hq, -⟩ := hedge
        exact hWH _ hq
      obtain ⟨-, -, hparrk, -⟩ := ht1 v.val hvw hvis2 hnz2
      rw [← hpar2] at hparrk
      omega
  have hdist : ∀ u v : Vtx m.width m.height, (mazeGraph m).Adj u v →
      rk u.val ≠ rk v.val := by
    intro u v hadj
    have hedge : edgeOpen m u.val v.val := hadj
    obtain ⟨hpin, hqin, -⟩ := hedge
    have hpw : InB w h u.val := hWH _ hpin
    have hqw : InB w h v.val := hWH _ hqin
    rcases ht2 u.val v.val hadj with ⟨hvis1, hnz1, hpar1⟩ | ⟨hvis2, hnz2, hpar2⟩
    · obtain ⟨-, -, hparrk, -⟩ := ht1 u.val hpw hvis1 hnz1
      rw [← hpar1] at hparrk
      omega
    · obtain ⟨-, -, hparrk, -⟩ := ht1 v.val hqw hvis2 hnz2
      rw [← hpar2] at hparrk
      omega
  have hdec : DecidableEq (Vtx m.width m.height) :=
    inferInstanceAs (DecidableEq { p : Point // InB m.width m.height p })
  exact isAcyclic_of_rank (mazeGraph m) (fun u => rk u.val) hdist
    (fun u v x hav hax hlv hlx => by
      have e1 := hlow u v hav hlv
      have e2 := hlow u x hax hlx
      exact Subtype.ext (e1.trans e2.symm))

/-- C1: for every width > 0 and height > 0 and any difficulty `d`,
`generateMaze width height d` terminates (the loop empties its stack within
the modeled fuel, witnessed by the second component of `generateMazeAux`
being `[]`) and returns a grid in which every in-bounds cell's `visited` flag
is `true` and whose open-edge graph is a spanning tree over all
`width * height` cells: connected and acyclic, with exactly
`width * height - 1` internal walls removed. -/
theorem generate_spanning_tree (w h d : Nat) (rand : Nat → Nat)
    (hw : 0 < w) (hh : 0 < h) :
    (generateMazeAux w h d rand).2 = [] ∧
    (∀ p : Point, InB w h p →
      (getCell (generateMaze w h d rand) p.x p.y).visited = true) ∧
    (mazeGraph (generateMaze w h d rand)).Connected ∧
    (mazeGraph (generateMaze w h d rand)).IsAcyclic ∧
    oCount (generateMaze w h d rand) = w * h - 1 := by
  obtain ⟨inv, hstack⟩ := generateMazeAux_inv w h d rand hw hh
  have hvisall := all_visited_of_empty_stack w h (generateMaze w h d rand) inv
  refine ⟨hstack, hvisall,
    connected_of_inv w h (generateMaze w h d rand) hw hh inv,
    acyclic_of_inv w h (generateMaze w h d rand) inv, ?_⟩
  have hW : (generateMaze w h d rand).width = w := inv.hwidth
  have hH : (generateMaze w h d rand).height = h := inv.hheight
  have hvfull : vCount (generateMaze w h d rand) = h * w := by
    have h1 : (allPoints (generateMaze w h d rand).width (generateMaze w h d rand).height).countP
        (fun p => (getCell (generateMaze w h d rand) p.x p.y).visited) =
        (allPoints (generateMaze w h d rand).width (generateMaze w h d rand).height).length := by
      rw [List.countP_eq_length]
      intro a ha
      have hain := (mem_allPoints _ _ a).mp ha
      have haw : InB w h a := by
        rw [hW, hH] at hain
        exact hain
      exact hvisall a haw
    show (allPoints (generateMaze w h d rand).width
      (generateMaze w h d rand).height).countP _ = h * w
    rw [h1, allPoints_length, hW, hH]
  have hc : oCount (generateMaze w h d rand) + 1 = vCount (generateMaze w h d rand) :=
    inv.count
  have hmul : w * h = h * w := Nat.mul_comm w h
  omega

theorem generate_spanning_tree_witness :
    (0 < 2 ∧ 0 < 2) ∧
    ((generateMazeAux 2 2 0 (fun _ => 0)).2 = [] ∧
    (∀ p : Point, InB 2 2 p →
      (getCell (generateMaze 2 2 0 (fun _ => 0)) p.x p.y).visited = true) ∧
    (mazeGraph (generateMaze 2 2 0 (fun _ => 0))).Connected ∧
    (mazeGraph (generateMaze 2 2 0 (fun _ => 0))).IsAcyclic ∧
    oCount (generateMaze 2 2 0 (fun _ => 0)) = 2 * 2 - 1) :=
  ⟨⟨by decide, by decide⟩,
    generate_spanning_tree 2 2 0 (fun _ => 0) (by decide) (by decide)⟩

/-- C4 (amended): wall symmetry holds for grids produced by `createGrid` and
by `generate`, and for `deserialize` when its input is the serialization of a
wall-symmetric shape-well-formed grid; it does not hold for `deserialize` of
arbitrary strings (see the counterexample). -/
theorem wall_symmetry_amended (w h d : Nat) (rand : Nat → Nat) (hw : 0 < w) (hh : 0 < h)
    (g : Maze) (wf : ShapeWF g) (hsym : WallSymm g) :
    WallSymm (createMaze w h) ∧
    WallSymm (generateMaze w h d rand) ∧
    WallSymm (deserializeMaze (serializeMaze g) g.width g.height) := by
  refine ⟨⟨?_, ?_⟩, ?_, ⟨?_, ?_⟩⟩
  · intro x y hx hy
    have hx' : x + 1 < w := hx
    have hy' : y < h := hy
    have hP : InB w h ⟨(x : Int), (y : Int)⟩ := by
      refine ⟨by simp, by dsimp only <;> omega, by simp, by dsimp only <;> omega⟩
    have hQ : InB w h ⟨(x : Int) + 1, (y : Int)⟩ := by
      refine ⟨by dsimp only <;> omega, by dsimp only <;> omega, by dsimp only <;> omega,
        by dsimp only <;> omega⟩
    have e1 := getCell_createMaze w h ⟨(x : Int), (y : Int)⟩ hP
    have e2 := getCell_createMaze w h ⟨(x : Int) + 1, (y : Int)⟩ hQ
    dsimp only at e1 e2
    rw [e1, e2]
    rfl
  · intro x y hx hy
    have hx' : x < w := hx
    have hy' : y + 1 < h := hy
    have hP : InB w h ⟨(x : Int), (y : Int)⟩ := by
      refine ⟨by simp, by dsimp only <;> omega, by simp, by dsimp only <;> omega⟩
    have hQ : InB w h ⟨(x : Int), (y : Int) + 1⟩ := by
      refine ⟨by dsimp only <;> omega, by dsimp only <;> omega, by dsimp only <;> omega,
        by dsimp only <;> omega⟩
    have e1 := getCell_createMaze w h ⟨(x : Int), (y : Int)⟩ hP
    have e2 := getCell_createMaze w h ⟨(x : Int), (y : Int) + 1⟩ hQ
    dsimp only at e1 e2
    rw [e1, e2]
    rfl
  · obtain ⟨inv, -⟩ := generateMazeAux_inv w h d rand hw hh
    exact inv.symm
  · intro x y hx hy
    have hx' : x + 1 < g.width := hx
    have hy' : y < g.height := hy
    have e1 := (roundtrip_cells g wf).2.2 x y (by omega) hy'
    have e2 := (roundtrip_cells g wf).2.2 (x + 1) y hx' hy'
    push_cast at e2
    rw [e1, e2]
    exact hsym.1 x y hx' hy'
  · intro x y hx hy
    have hx' : x < g.width := hx
    have hy' : y + 1 < g.height := hy
    have e1 := (roundtrip_cells g wf).2.2 x y hx' (by omega)
    have e2 := (roundtrip_cells g wf).2.2 x (y + 1) hx' hy'
    push_cast at e2
    rw [e1, e2]
    exact hsym.2 x y hx' hy'

/-- Witness for the amended C4 at `w = h = 2`, `g = createMaze 2 1`. -/
theorem wall_symmetry_amended_witness :
    (0 < 2 ∧ ShapeWF (createMaze 2 1) ∧ WallSymm (createMaze 2 1)) ∧
    (WallSymm (createMaze 2 2) ∧ WallSymm (generateMaze 2 2 0 (fun _ => 0)) ∧
      WallSymm (deserializeMaze (serializeMaze (createMaze 2 1)) (createMaze 2 1).width
        (createMaze 2 1).height)) := by
  have hsym : WallSymm (createMaze 2 1) := by
    constructor
    · intro x y hx hy
      have hx' : x + 1 < 2 := hx
      have hy' : y < 1 := hy
      have hx0 : x = 0 := by omega
      have hy0 : y = 0 := by omega
      subst hx0
      subst hy0
      decide
    · intro x y hx hy
      have hy' : y + 1 < 1 := hy
      exact absurd hy' (by omega)
  exact ⟨⟨by decide, by decide, hsym⟩,
    wall_symmetry_amended 2 2 0 (fun _ => 0) (by decide) (by decide) (createMaze 2 1)
      (by decide) hsym⟩
